import Mathlib

/-!
# Red-black tree map (`rb.c`): a value-level embedding

The C program keeps its nodes on the heap and updates them in place.  Here a
pointer to a node is the value of that node together with everything reachable
from it (`map_node_t.nil` is `NULL`).  Every accessor that dereferences its
argument returns `none` on `NULL`, and a failed `assert` is `none` as well, so
that `some` means: the call ran to completion.

The path array `rb_path_entry_t path[RB_MAX_DEPTH]` is a list here, and the list
is of any length: a descent longer than the array overruns it in the C program
and gives a result here.  That a descent fits the array is a condition of its
own, `rb_insert_path_fits`; a tree that satisfies the red-black invariants
meets it (C15).  `malloc` always succeeds, and `free` has no effect that this
level can observe.

Two points follow from reading pointers as values.  First, when an unwind loop
returns early, the C nodes above the current one keep their links to a node
that was updated in place; here these ancestors are rebuilt around the updated
node (`rb_path_relink`).  Second, the comparison of two node pointers is the
comparison of the two node values.
-/

namespace RbMap

/-- Byte buffer behind a `void *`. -/
abbrev Buf := List Nat

/-- Modelled from the spec: `map_node_t` is declared in `rb.h`, which is not part of
the sources at hand.  A node has a left link, a right link paired with a colour
tag, an owned key buffer and an owned value buffer.  A value of this type stands
for a `map_node_t *`: `nil` is `NULL`. -/
inductive map_node_t where
  | nil : map_node_t
  | node (left : map_node_t) (key val : Buf) (red : Bool) (right : map_node_t) : map_node_t
  deriving DecidableEq

/-- The C expression `assert(b)`. -/
def c_assert (b : Bool) : Option Unit :=
  if b then some () else none

/-- The C expression `node->key`. -/
def node_key : map_node_t → Option Buf
  | .nil => none
  | .node _ k _ _ _ => some k

/-- The C expression `node->val`. -/
def node_val : map_node_t → Option Buf
  | .nil => none
  | .node _ _ v _ _ => some v

/-- The function `rbtnode_get_left`. -/
def rbtnode_get_left : map_node_t → Option map_node_t
  | .nil => none
  | .node l _ _ _ _ => some l

/-- The function `rbtnode_set_left`. -/
def rbtnode_set_left : map_node_t → map_node_t → Option map_node_t
  | .nil, _ => none
  | .node _ k v c r, left => some (.node left k v c r)

/-- The function `rbtnode_get_right`. -/
def rbtnode_get_right : map_node_t → Option map_node_t
  | .nil => none
  | .node _ _ _ _ r => some r

/-- The function `rbtnode_set_right`: the colour bit of the node is kept. -/
def rbtnode_set_right : map_node_t → map_node_t → Option map_node_t
  | .nil, _ => none
  | .node l k v c _, right => some (.node l k v c right)

/-- The function `rbtnode_get_red`. -/
def rbtnode_get_red : map_node_t → Option Bool
  | .nil => none
  | .node _ _ _ c _ => some c

/-- The function `rbtnode_set_color`: `true` is red. -/
def rbtnode_set_color : map_node_t → Bool → Option map_node_t
  | .nil, _ => none
  | .node l k v _ r, color => some (.node l k v color r)

/-- The function `rbtnode_set_red`. -/
def rbtnode_set_red : map_node_t → Option map_node_t
  | .nil => none
  | .node l k v _ r => some (.node l k v true r)

/-- The function `rbtnode_set_black`. -/
def rbtnode_set_black : map_node_t → Option map_node_t
  | .nil => none
  | .node l k v _ r => some (.node l k v false r)

/-- The C idiom `x && rbtnode_get_red(x)`: the colour is only read when `x` is not `NULL`. -/
def rbtnode_nonnull_red : map_node_t → Bool
  | .nil => false
  | .node _ _ _ c _ => c

/-- An update `f` made in place to the left child of `node`, as seen from `node`. -/
def rbtnode_in_left (f : map_node_t → Option map_node_t) (node : map_node_t) :
    Option map_node_t := do
  let left ← rbtnode_get_left node
  let left ← f left
  rbtnode_set_left node left

/-- An update `f` made in place to the right child of `node`, as seen from `node`. -/
def rbtnode_in_right (f : map_node_t → Option map_node_t) (node : map_node_t) :
    Option map_node_t := do
  let right ← rbtnode_get_right node
  let right ← f right
  rbtnode_set_right node right

/-- The function `rbt_node_init` (the alignment assertion concerns the address, which has no
counterpart at this level). -/
def rbt_node_init (node : map_node_t) : Option map_node_t := do
  let node ← rbtnode_set_left node .nil
  let node ← rbtnode_set_right node .nil
  rbtnode_set_red node

/-- The rotation `rbtnode_rotate_left(x_node, r_node)`: the result is `r_node`, whose left child is
the updated `x_node`. -/
def rbtnode_rotate_left (x_node : map_node_t) : Option map_node_t := do
  let r_node ← rbtnode_get_right x_node
  let r_left ← rbtnode_get_left r_node
  let x_node ← rbtnode_set_right x_node r_left
  rbtnode_set_left r_node x_node

/-- The rotation `rbtnode_rotate_right(x_node, r_node)`: the result is `r_node`, whose right child is
the updated `x_node`. -/
def rbtnode_rotate_right (x_node : map_node_t) : Option map_node_t := do
  let r_node ← rbtnode_get_left x_node
  let r_right ← rbtnode_get_right r_node
  let x_node ← rbtnode_set_left x_node r_right
  rbtnode_set_right r_node x_node

/-- The type `rb_path_entry_t`. -/
structure rb_path_entry_t where
  node : map_node_t
  cmp : Int

/-- Modelled from the spec: `map_internal_t` is declared in `rb.h`, which is not part of
the sources at hand: the two fixed sizes, the three-way comparator over two raw
buffers, and the root. -/
structure map_internal_t where
  key_size : Nat
  val_size : Nat
  cmp : Buf → Buf → Int
  root : map_node_t

/-- Modelled from the spec: `map_iter_t` is declared in `rb.h`, which is not part of the
sources at hand; `rb.c` uses its field `node` only. -/
structure map_iter_t where
  node : map_node_t

/-- The loop of `rb_search`, started at `ret`. -/
def rb_search_loop (cmp : Buf → Buf → Int) (key : Buf) : map_node_t → map_node_t
  | .nil => .nil
  | .node l k v c r =>
    let cmpv := cmp key k
    if cmpv = 0 then .node l k v c r
    else if cmpv < 0 then rb_search_loop cmp key l
    else rb_search_loop cmp key r

/-- The function `rb_search`; `key` is `keynode->key`, the only field read from `keynode`. -/
def rb_search (rbtree : map_internal_t) (key : Buf) : map_node_t :=
  rb_search_loop rbtree.cmp key rbtree.root

/-- Wind phase of `rb_insert`: the entries `path[0] .. pathp[-1]`, top first.  The
loop stops at a `NULL` slot or at a node whose key compares equal; in both cases
the entry it stops at is the one overwritten by `pathp->node = node`.  The list
is not cut at `RB_MAX_DEPTH` entries. -/
def rb_insert_wind (cmp : Buf → Buf → Int) (key : Buf) : map_node_t → List rb_path_entry_t
  | .nil => []
  | .node l k v c r =>
    let cmpv := cmp key k
    if cmpv = 0 then []
    else if cmpv < 0 then ⟨.node l k v c r, cmpv⟩ :: rb_insert_wind cmp key l
    else ⟨.node l k v c r, cmpv⟩ :: rb_insert_wind cmp key r

/-- How one iteration of an unwind loop ends. -/
inductive rb_unwind_t where
  /-- `return`: the node now at this path position. -/
  | ret (cnode : map_node_t) : rb_unwind_t
  /-- `pathp->node = cnode`, and the loop goes on one level up. -/
  | next (cnode : map_node_t) : rb_unwind_t
  deriving DecidableEq

/-- After a `return` inside an unwind loop the nodes above are not touched again: each
still holds its link (left when its `cmp` is negative, right otherwise) to the
node below, which was updated in place.  `above` lists these entries bottom
first. -/
def rb_path_relink : List rb_path_entry_t → map_node_t → Option map_node_t
  | [], t => some t
  | e :: above, t => do
    let p ← if e.cmp < 0 then rbtnode_set_left e.node t else rbtnode_set_right e.node t
    rb_path_relink above p

/-- Body of the unwind loop of `rb_insert` at entry `e`; `child` is `pathp[1].node`. -/
def rb_insert_step (e : rb_path_entry_t) (child : map_node_t) : Option rb_unwind_t := do
  let cnode := e.node
  if e.cmp < 0 then
    let left := child
    let cnode ← rbtnode_set_left cnode left
    let left_red ← rbtnode_get_red left
    if !left_red then
      return .ret cnode
    let leftleft ← rbtnode_get_left left
    if rbtnode_nonnull_red leftleft then
      -- Fix up 4-node: `rbtnode_set_black(leftleft)` is seen through `cnode`.
      let cnode ← rbtnode_in_left (rbtnode_in_left rbtnode_set_black) cnode
      let tnode ← rbtnode_rotate_right cnode
      return .next tnode
    else
      return .next cnode
  else
    let right := child
    let cnode ← rbtnode_set_right cnode right
    let right_red ← rbtnode_get_red right
    if !right_red then
      return .ret cnode
    let left ← rbtnode_get_left cnode
    if rbtnode_nonnull_red left then
      -- Split 4-node.
      let cnode ← rbtnode_in_left rbtnode_set_black cnode
      let cnode ← rbtnode_in_right rbtnode_set_black cnode
      let cnode ← rbtnode_set_red cnode
      return .next cnode
    else
      -- Lean left.
      let tred ← rbtnode_get_red cnode
      let tnode ← rbtnode_rotate_left cnode
      let tnode ← rbtnode_set_color tnode tred
      -- `rbtnode_set_red(cnode)`: `cnode` is the left child of `tnode` by now.
      let tnode ← rbtnode_in_left rbtnode_set_red tnode
      return .next tnode

/-- Unwind loop of `rb_insert`: `rev_path` lists `pathp, pathp - 1, .., path`, and
`child` is `pathp[1].node`. -/
def rb_insert_unwind : List rb_path_entry_t → map_node_t → Option rb_unwind_t
  | [], child => some (.next child)
  | e :: above, child => do
    match ← rb_insert_step e child with
    | .ret cnode => return .ret (← rb_path_relink above cnode)
    | .next cnode => rb_insert_unwind above cnode

/-- The function `rb_insert`. -/
def rb_insert (rbtree : map_internal_t) (node : map_node_t) : Option map_internal_t := do
  let node ← rbt_node_init node
  -- Wind.
  let key ← node_key node
  let path := rb_insert_wind rbtree.cmp key rbtree.root
  c_assert (decide ((← rbtnode_get_left node) = .nil))
  c_assert (decide ((← rbtnode_get_right node) = .nil))
  -- Unwind.
  match ← rb_insert_unwind path.reverse node with
  | .ret root =>
    -- returned from inside the loop: `rbtree->root` still points to `path[0].node`
    return { rbtree with root := root }
  | .next root =>
    -- Set root, and make it black.
    let root ← rbtnode_set_black root
    return { rbtree with root := root }

/-- Inner loop of the wind phase of `rb_remove`: the descent to the leftmost node,
every entry recorded with `cmp = -1`. -/
def rb_remove_successor : map_node_t → List rb_path_entry_t
  | .nil => []
  | .node l k v c r => ⟨.node l k v c r, -1⟩ :: rb_remove_successor l

/-- Wind phase of `rb_remove`: the entries from `path[0]` to the last one whose node
is not `NULL`, top first, and the position of `nodep` in them (`none`: `nodep`
is still `NULL`).  The descent compares `val` buffers. -/
def rb_remove_wind (cmp : Buf → Buf → Int) (val : Buf) :
    map_node_t → List rb_path_entry_t × Option Nat
  | .nil => ([], none)
  | .node l k v c r =>
    let cmpv := cmp val v
    if cmpv < 0 then
      let w := rb_remove_wind cmp val l
      (⟨.node l k v c r, cmpv⟩ :: w.1, w.2.map (· + 1))
    else if cmpv = 0 then
      -- Find node's successor, in preparation for swap.
      (⟨.node l k v c r, 1⟩ :: rb_remove_successor r, some 0)
    else
      let w := rb_remove_wind cmp val r
      (⟨.node l k v c r, cmpv⟩ :: w.1, w.2.map (· + 1))

/-- Unwind loop of `rb_remove`, left step, `pathp->node` red.  The sibling subtree is
rotated up; the result is `tnode`, which the code links into `pathp[-1].node`. -/
def rb_remove_left_red (at_top : Bool) (pnode : map_node_t) : Option rb_unwind_t := do
  let right ← rbtnode_get_right pnode
  let rightleft ← rbtnode_get_left right
  if rbtnode_nonnull_red rightleft then
    let pnode ← rbtnode_set_black pnode
    let tnode ← rbtnode_rotate_right right
    let pnode ← rbtnode_set_right pnode tnode
    let tnode ← rbtnode_rotate_left pnode
    c_assert (!at_top)
    return .ret tnode
  else
    let tnode ← rbtnode_rotate_left pnode
    c_assert (!at_top)
    return .ret tnode

/-- Unwind loop of `rb_remove`, left step, `pathp->node` black. -/
def rb_remove_left_black (pnode : map_node_t) : Option rb_unwind_t := do
  let right ← rbtnode_get_right pnode
  let rightleft ← rbtnode_get_left right
  if rbtnode_nonnull_red rightleft then
    -- `rbtnode_set_black(rightleft)` is seen through `right`.
    let right ← rbtnode_in_left rbtnode_set_black right
    let tnode ← rbtnode_rotate_right right
    let pnode ← rbtnode_set_right pnode tnode
    let tnode ← rbtnode_rotate_left pnode
    return .ret tnode
  else
    let pnode ← rbtnode_set_red pnode
    let tnode ← rbtnode_rotate_left pnode
    return .next tnode

/-- Unwind loop of `rb_remove`, right step, `left` red. -/
def rb_remove_right_sibling_red (pnode left : map_node_t) : Option rb_unwind_t := do
  let leftright ← rbtnode_get_right left
  let leftrightleft ← rbtnode_get_left leftright
  if rbtnode_nonnull_red leftrightleft then
    -- `rbtnode_set_black(leftrightleft)` is seen through `pathp->node`.
    let pnode ← rbtnode_in_left (rbtnode_in_right (rbtnode_in_left rbtnode_set_black)) pnode
    let unode ← rbtnode_rotate_right pnode
    -- `pathp->node` is the right child of `unode` by now.
    let pnode ← rbtnode_get_right unode
    let tnode ← rbtnode_rotate_right pnode
    let unode ← rbtnode_set_right unode tnode
    let tnode ← rbtnode_rotate_left unode
    return .ret tnode
  else
    c_assert (decide (leftright ≠ .nil))
    -- `rbtnode_set_red(leftright)` is seen through `pathp->node`.
    let pnode ← rbtnode_in_left (rbtnode_in_right rbtnode_set_red) pnode
    let tnode ← rbtnode_rotate_right pnode
    let tnode ← rbtnode_set_black tnode
    return .ret tnode

/-- Unwind loop of `rb_remove`, right step, `left` black and `pathp->node` red. -/
def rb_remove_right_red (at_top : Bool) (pnode left : map_node_t) : Option rb_unwind_t := do
  let leftleft ← rbtnode_get_left left
  if rbtnode_nonnull_red leftleft then
    let pnode ← rbtnode_set_black pnode
    let pnode ← rbtnode_in_left rbtnode_set_red pnode
    let pnode ← rbtnode_in_left (rbtnode_in_left rbtnode_set_black) pnode
    let tnode ← rbtnode_rotate_right pnode
    c_assert (!at_top)
    return .ret tnode
  else
    let pnode ← rbtnode_in_left rbtnode_set_red pnode
    let pnode ← rbtnode_set_black pnode
    -- Balance restored.
    return .ret pnode

/-- Unwind loop of `rb_remove`, right step, `left` black and `pathp->node` black. -/
def rb_remove_right_black (pnode left : map_node_t) : Option rb_unwind_t := do
  let leftleft ← rbtnode_get_left left
  if rbtnode_nonnull_red leftleft then
    let pnode ← rbtnode_in_left (rbtnode_in_left rbtnode_set_black) pnode
    let tnode ← rbtnode_rotate_right pnode
    return .ret tnode
  else
    let pnode ← rbtnode_in_left rbtnode_set_red pnode
    return .next pnode

/-- Body of the unwind loop of `rb_remove` at entry `e`; `child` is `pathp[1].node`,
and `at_top` says whether `pathp == path`.  On `ret` the node returned is the one
that the code links into `pathp[-1].node`, or makes the root, before it returns
(or `pathp->node` itself where the code returns without relinking). -/
def rb_remove_step (at_top : Bool) (e : rb_path_entry_t) (child : map_node_t) :
    Option rb_unwind_t := do
  c_assert (decide (e.cmp ≠ 0))
  if e.cmp < 0 then
    let pnode ← rbtnode_set_left e.node child
    let pnode_red ← rbtnode_get_red pnode
    if pnode_red then rb_remove_left_red at_top pnode
    else rb_remove_left_black pnode
  else
    let pnode ← rbtnode_set_right e.node child
    let left ← rbtnode_get_left pnode
    let left_red ← rbtnode_get_red left
    if left_red then rb_remove_right_sibling_red pnode left
    else
      let pnode_red ← rbtnode_get_red pnode
      if pnode_red then rb_remove_right_red at_top pnode left
      else rb_remove_right_black pnode left

/-- Unwind loop of `rb_remove` with the statements after it: the list holds the entries
`pathp, pathp - 1, .., path`, and `child` is `pathp[1].node`; the result is the
root. -/
def rb_remove_unwind : List rb_path_entry_t → map_node_t → Option map_node_t
  | [], child => do
    -- Set root.
    let child_red ← rbtnode_get_red child
    c_assert (!child_red)
    return child
  | e :: above, child =>
    match rb_remove_step above.isEmpty e child with
    | none => none
    | some (.ret tnode) => rb_path_relink above tnode
    | some (.next tnode) => rb_remove_unwind above tnode

/-- The part of `rb_remove` from `if (rbtnode_get_red(pathp->node))` on: `pnode` is
`pathp->node`, `above` lists `pathp - 1, .., path`; the result is the root. -/
def rb_remove_prune (pnode : map_node_t) (above : List rb_path_entry_t) :
    Option map_node_t := do
  let pnode_red ← rbtnode_get_red pnode
  if pnode_red then
    -- Prune red node, which requires no fixup.
    match above with
    | [] => none
    | parent :: above =>
      c_assert (decide (parent.cmp < 0))
      let p ← rbtnode_set_left parent.node .nil
      rb_path_relink above p
  else
    -- `pathp->node = NULL`, then unwind.
    rb_remove_unwind above .nil

/-- The branch `Swap node with its successor` of `rb_remove`: `succ_node` is
`pathp->node`, `above` lists `pathp - 1, .., path` and `nodep` is entry `i` from
the top; the result is the root.  `nodep->node = pathp->node; pathp->node = node;`
the link from `nodep[-1].node` (or from the root) to the successor, which the
code sets here, is the one that `rb_path_relink` restores. -/
def rb_remove_swap (node succ_node : map_node_t) (above : List rb_path_entry_t) (i : Nat) :
    Option map_node_t := do
  let tred ← rbtnode_get_red succ_node
  let node_red ← rbtnode_get_red node
  let succ_node ← rbtnode_set_color succ_node node_red
  let node_left ← rbtnode_get_left node
  let succ_node ← rbtnode_set_left succ_node node_left
  let node_right ← rbtnode_get_right node
  let succ_node ← rbtnode_set_right succ_node node_right
  let node ← rbtnode_set_color node tred
  let above := (above.reverse.modify (fun e => { e with node := succ_node }) i).reverse
  rb_remove_prune node above

/-- The branch of `rb_remove` taken when `pathp->node == node`: `above` lists
`pathp - 1, .., path`; the result is the root. -/
def rb_remove_splice (node : map_node_t) (above : List rb_path_entry_t) :
    Option map_node_t := do
  let left ← rbtnode_get_left node
  if left ≠ .nil then
    -- node has no successor, but it has a left child.
    let node_red ← rbtnode_get_red node
    c_assert (!node_red)
    let left_red ← rbtnode_get_red left
    c_assert left_red
    let left ← rbtnode_set_black left
    rb_path_relink above left
  else if above.isEmpty then
    -- The tree only contained one node.
    return .nil
  else
    rb_remove_prune node above

/-- The root after `rb_remove`.  Pointer equality of nodes is equality of the node
values: two different nodes of one tree have different values as soon as no two
nodes of the tree carry the same key bytes. -/
def rb_remove_root (cmp : Buf → Buf → Int) (root node : map_node_t) : Option map_node_t := do
  -- Wind.
  let val ← node_val node
  let w := rb_remove_wind cmp val root
  -- `assert(nodep->node == node)` dereferences `nodep`.
  let i ← w.2
  let nodep_e ← w.1.get? i
  c_assert (decide (nodep_e.node = node))
  -- `pathp--`
  let pathp_e ← w.1.getLast?
  let above := w.1.dropLast.reverse
  if pathp_e.node ≠ node then rb_remove_swap node pathp_e.node above i
  else rb_remove_splice node above

/-- The function `rb_remove`. -/
def rb_remove (rbtree : map_internal_t) (node : map_node_t) : Option map_internal_t :=
  (rb_remove_root rbtree.cmp rbtree.root node).map fun root => { rbtree with root := root }

/-- The function `rb_destroy_recurse`: the nodes handed to `free`, in that order, each with both
links already cleared. -/
def rb_destroy_recurse : map_node_t → List map_node_t
  | .nil => []
  | .node l k v c r =>
    rb_destroy_recurse l ++ rb_destroy_recurse r ++ [.node .nil k v c .nil]

/-- The C expression `memcpy(dst, src, n)` from a caller buffer that holds at least `n` bytes. -/
def memcpy (src : Buf) (n : Nat) : Buf :=
  src.take n

/-- The C expression `memset(dst, 0, n)`. -/
def memset_zero (n : Nat) : Buf :=
  List.replicate n 0

/-- The function `map_create_node`; `none` is a `NULL` argument.  The links and the colour are
whatever `malloc` left there until `rbt_node_init` sets them. -/
def map_create_node (key value : Option Buf) (ksize vsize : Nat) : map_node_t :=
  let k := match key with
    | none => memset_zero ksize
    | some key => memcpy key ksize
  let v := match value with
    | none => memset_zero vsize
    | some value => memcpy value vsize
  .node .nil k v false .nil

/-- The function `map_new`. -/
def map_new (s1 s2 : Nat) (cmp : Buf → Buf → Int) : map_internal_t :=
  { key_size := s1, val_size := s2, cmp := cmp, root := .nil }

/-- The function `map_insert`: the map after the call and the value returned. -/
def map_insert (obj : map_internal_t) (key val : Option Buf) :
    Option (map_internal_t × Bool) := do
  let node := map_create_node key val obj.key_size obj.val_size
  let obj ← rb_insert obj node
  return (obj, true)

/-- The function `map_find`: the iterator written through `it`. -/
def map_find (obj : map_internal_t) (key : Buf) : map_iter_t :=
  { node := rb_search obj key }

/-- The function `map_empty`. -/
def map_empty (obj : map_internal_t) : Bool :=
  decide (obj.root = .nil)

/-- The function `map_at_end`. -/
def map_at_end (_obj : map_internal_t) (it : map_iter_t) : Bool :=
  decide (it.node = .nil)

/-- The function `map_erase` (`map_delete_node` releases the buffers of the node taken out). -/
def map_erase (obj : map_internal_t) (it : map_iter_t) : Option map_internal_t :=
  if it.node = .nil then some obj
  else rb_remove obj it.node

/-- The function `map_clear`: the map after the call, and the nodes released. -/
def map_clear (obj : map_internal_t) : map_internal_t × List map_node_t :=
  ({ obj with root := .nil }, rb_destroy_recurse obj.root)

/-! ## Notions used to state the properties -/

/-- In-order traversal (left subtree, node, right subtree): the key and the value of
every node. -/
def inorder : map_node_t → List (Buf × Buf)
  | .nil => []
  | .node l k v _ r => inorder l ++ (k, v) :: inorder r

/-- The node carried by the outcome of a loop iteration. -/
def unwind_node : rb_unwind_t → map_node_t
  | .ret cnode => cnode
  | .next cnode => cnode

/-- What the descent of `rb_insert` does to the in-order sequence: the sequence `new`
takes the place of the slot where the descent stops, an empty slot or a whole
subtree whose root compares equal to `key`. -/
def insert_inorder (cmp : Buf → Buf → Int) (key : Buf) (new : List (Buf × Buf)) :
    map_node_t → List (Buf × Buf)
  | .nil => new
  | .node l k v _ r =>
    if cmp key k = 0 then new
    else if cmp key k < 0 then insert_inorder cmp key new l ++ (k, v) :: inorder r
    else inorder l ++ (k, v) :: insert_inorder cmp key new r

/-- Laws of a three-way comparator that orders buffers. -/
structure comparator_laws (cmp : Buf → Buf → Int) : Prop where
  refl : ∀ a, cmp a a = 0
  antisymm : ∀ a b, cmp a b < 0 ↔ 0 < cmp b a
  trans : ∀ a b c, cmp a b < 0 → cmp b c < 0 → cmp a c < 0

/-- Value of a buffer read as a little-endian unsigned integer. -/
def le_value : Buf → Int
  | [] => 0
  | b :: bs => (b : Int) + 256 * le_value bs

/-- A numeric comparator over buffers holding little-endian integers. -/
def cmp_int (a b : Buf) : Int :=
  le_value a - le_value b

/-- The four bytes of `n`, least significant first. -/
def bytes4 (n : Nat) : Buf :=
  [n % 256, n / 256 % 256, n / 65536 % 256, n / 16777216 % 256]

/-- How the unwind loop of `rb_insert` goes on through the entries `above` once the
iteration below them has ended with `u`. -/
def rb_insert_resume (above : List rb_path_entry_t) : rb_unwind_t → Option rb_unwind_t
  | .ret cnode => (rb_path_relink above cnode).map .ret
  | .next cnode => rb_insert_unwind above cnode

/-- The wind and unwind of `rb_insert` restricted to the subtree `t` on the descent:
the outcome of the loop iteration at the root of `t` (`next child` when the
descent stops at `t` itself). -/
def rb_insert_sub (cmp : Buf → Buf → Int) (key : Buf) (child : map_node_t) :
    map_node_t → Option rb_unwind_t
  | .nil => some (.next child)
  | .node l k v c r =>
    if cmp key k = 0 then some (.next child)
    else if cmp key k < 0 then
      (rb_insert_sub cmp key child l).bind
        (rb_insert_resume [⟨.node l k v c r, cmp key k⟩])
    else
      (rb_insert_sub cmp key child r).bind
        (rb_insert_resume [⟨.node l k v c r, cmp key k⟩])

/-- The keys of the in-order traversal. -/
def inorder_keys (t : map_node_t) : List Buf :=
  (inorder t).map Prod.fst

/-- One call made by a client of the map; `erase key` is `map_find` on `key` followed
by `map_erase` on the iterator it filled in. -/
inductive map_op where
  | insert (key val : Buf) : map_op
  | erase (key : Buf) : map_op

/-- The map after one client call. -/
def map_apply (obj : map_internal_t) : map_op → Option map_internal_t
  | .insert key val => (map_insert obj (some key) (some val)).map Prod.fst
  | .erase key => map_erase obj (map_find obj key)

/-- The map after a sequence of client calls. -/
def map_run (obj : map_internal_t) : List map_op → Option map_internal_t
  | [] => some obj
  | op :: ops => (map_apply obj op).bind fun obj => map_run obj ops

/-- The map after `map_insert` of every key/value pair of a list, in order. -/
def map_insert_all (obj : map_internal_t) : List (Buf × Buf) → Option map_internal_t
  | [] => some obj
  | kv :: rest =>
    (map_insert obj (some kv.1) (some kv.2)).bind fun p => map_insert_all p.1 rest

/-- Invariant (c): the root, if present, is black. -/
def root_black (t : map_node_t) : Bool :=
  !rbtnode_nonnull_red t

/-- Invariant (d): no red node has a red child. -/
def no_red_red : map_node_t → Bool
  | .nil => true
  | .node l _ _ c r =>
    (!c || (!rbtnode_nonnull_red l && !rbtnode_nonnull_red r)) && no_red_red l && no_red_red r

/-- Invariant (e): the number of black nodes on the paths from this node to an empty
slot, when all these paths agree on it. -/
def black_height : map_node_t → Option Nat
  | .nil => some 0
  | .node l _ _ c r =>
    match black_height l, black_height r with
    | some a, some b => if a = b then some (if c then a else a + 1) else none
    | _, _ => none

/-- Invariant (f): no node has a red right child without a red left child. -/
def left_leaning : map_node_t → Bool
  | .nil => true
  | .node l _ _ _ r =>
    (!rbtnode_nonnull_red r || rbtnode_nonnull_red l) && left_leaning l && left_leaning r

/-- The red-black invariants (c) to (f) together. -/
def rb_invariants (t : map_node_t) : Bool :=
  root_black t && no_red_red t && (black_height t).isSome && left_leaning t

/-- The keys that client calls have inserted and not erased since, most recent first:
an insert of a key that is already live adds nothing. -/
def live_keys (cmp : Buf → Buf → Int) : List map_op → List Buf → List Buf
  | [], live => live
  | .insert key _ :: ops, live =>
    if live.any (fun k => decide (cmp key k = 0)) then live_keys cmp ops live
    else live_keys cmp ops (key :: live)
  | .erase key :: ops, live =>
    live_keys cmp ops (live.filter fun k => decide (cmp key k ≠ 0))

/-- A new map with 4-byte keys and 4-byte values under the numeric comparator. -/
def int_map : map_internal_t :=
  map_new 4 4 cmp_int

/-- The client call that inserts the 4-byte integer `n` with the 4-byte integer `v`. -/
def ins (n v : Nat) : map_op :=
  .insert (bytes4 n) (bytes4 v)

/-- The client call that looks up the 4-byte integer `n` and erases what was found. -/
def ers (n : Nat) : map_op :=
  .erase (bytes4 n)

/-- A leaf node holding the 4-byte integers `n` and `v`. -/
def leaf (n v : Nat) (red : Bool) : map_node_t :=
  .node .nil (bytes4 n) (bytes4 v) red .nil

/-- The scenario of the specification: keys 10, 20, 5, 15, 25 in that order, each with a
value of its own. -/
def scenario_pairs : List (Buf × Buf) :=
  [(bytes4 10, bytes4 110), (bytes4 20, bytes4 120), (bytes4 5, bytes4 105),
   (bytes4 15, bytes4 115), (bytes4 25, bytes4 125)]

/-- A map under the numeric comparator whose tree is the single black node `n`. -/
def leaf_map (n : Nat) : map_internal_t :=
  { int_map with root := leaf n n false }

/-- The nodes of a tree, each with the subtree below it, in in-order. -/
def nodes : map_node_t → List map_node_t
  | .nil => []
  | .node l k v c r => nodes l ++ .node l k v c r :: nodes r

/-- Invariant (a): strict binary-search-tree order by the comparator over keys.  At
every node the keys of the left subtree compare below the key of the node, and
the key of the node compares below the keys of the right subtree. -/
def bst_order (cmp : Buf → Buf → Int) : map_node_t → Prop
  | .nil => True
  | .node l k _ _ r =>
    (∀ p ∈ inorder l, cmp p.1 k < 0) ∧ (∀ p ∈ inorder r, cmp k p.1 < 0) ∧
      bst_order cmp l ∧ bst_order cmp r

/-- Invariant (b): no two nodes carry keys that compare equal. -/
def distinct_keys (cmp : Buf → Buf → Int) (t : map_node_t) : Prop :=
  (inorder t).Pairwise fun a b => cmp a.1 b.1 ≠ 0

/-- The tree that the inserts of 1, 2, 3 build: three black nodes. -/
def three_tree : map_node_t :=
  .node (leaf 1 1 false) (bytes4 2) (bytes4 2) false (leaf 3 3 false)

/-- The map that holds `three_tree`. -/
def three_map : map_internal_t :=
  { key_size := 4, val_size := 4, cmp := cmp_int, root := three_tree }

/-- The tree with the black root 2 and the red left child 1, holding the values `v1`
and `v2`. -/
def two_tree (v1 v2 : Nat) : map_node_t :=
  .node (leaf 1 v1 true) (bytes4 2) (bytes4 v2) false .nil

/-- Height of a tree: the number of nodes on the longest path from the root to an
empty slot. -/
def height : map_node_t → Nat
  | .nil => 0
  | .node l _ _ _ r => 1 + max (height l) (height r)

/-- Number of nodes of a tree. -/
def tree_size : map_node_t → Nat
  | .nil => 0
  | .node l _ _ _ r => 1 + tree_size l + tree_size r

/-- The last statements of `rb_insert`, from the outcome of the loop: after a `return`
inside the loop the root is the node that was the root before, updated in place;
otherwise the root is set and made black. -/
def rb_insert_finish (rbtree : map_internal_t) : rb_unwind_t → Option map_internal_t
  | .ret root => some { rbtree with root := root }
  | .next root => (rbtnode_set_black root).map fun root => { rbtree with root := root }

/-! ## The packed node: the colour in the low bit of the right link -/

/-- The C expression `x & ~m` on addresses: the bits of `m` are cleared in `x`. -/
def uintptr_and_not (x m : Nat) : Nat :=
  x - (x &&& m)

/-- Modelled from the spec: the two link words of a node as `rb.c` reads and writes them,
`link.left` and `link.right_red`, each a `uintptr_t` value; 0 is `NULL`.  The
declaration is in `rb.h`, which is not part of the sources at hand. -/
structure packed_link_t where
  left : Nat
  right_red : Nat

/-- A node with three independent fields, as the data model of the specification has
it: a left link, a right link and a colour. -/
structure plain_node_t where
  left : Nat
  right : Nat
  red : Bool

/-- Setting the left link of a node with three independent fields. -/
def plain_set_left (n : plain_node_t) (left : Nat) : plain_node_t :=
  { n with left := left }

/-- Setting the right link of a node with three independent fields. -/
def plain_set_right (n : plain_node_t) (right : Nat) : plain_node_t :=
  { n with right := right }

/-- Setting the colour of a node with three independent fields. -/
def plain_set_color (n : plain_node_t) (red : Bool) : plain_node_t :=
  { n with red := red }

namespace Packed

/-- The function `rbtnode_get_left` on the link words. -/
def rbtnode_get_left (node : packed_link_t) : Nat :=
  node.left

/-- The function `rbtnode_set_left` on the link words. -/
def rbtnode_set_left (node : packed_link_t) (left : Nat) : packed_link_t :=
  { node with left := left }

/-- The function `rbtnode_get_right` on the link words: `right_red & ~3`. -/
def rbtnode_get_right (node : packed_link_t) : Nat :=
  uintptr_and_not node.right_red 3

/-- The function `rbtnode_set_right` on the link words: `right | (right_red & 1)`. -/
def rbtnode_set_right (node : packed_link_t) (right : Nat) : packed_link_t :=
  { node with right_red := right ||| (node.right_red &&& 1) }

/-- The function `rbtnode_get_red` on the link words: `(bool) (right_red & 1)`. -/
def rbtnode_get_red (node : packed_link_t) : Bool :=
  decide (node.right_red &&& 1 ≠ 0)

/-- The function `rbtnode_set_color` on the link words: `(right_red & ~3) | color`; the
colour is 1 for red and 0 for black, as where `rb.c` passes a `bool` for it. -/
def rbtnode_set_color (node : packed_link_t) (color : Bool) : packed_link_t :=
  { node with right_red := uintptr_and_not node.right_red 3 ||| color.toNat }

/-- The function `rbtnode_set_red` on the link words: `right_red | 1`. -/
def rbtnode_set_red (node : packed_link_t) : packed_link_t :=
  { node with right_red := node.right_red ||| 1 }

/-- The function `rbtnode_set_black` on the link words: `right_red & ~3`. -/
def rbtnode_set_black (node : packed_link_t) : packed_link_t :=
  { node with right_red := uintptr_and_not node.right_red 3 }

/-- The function `rbt_node_init` on the link words of the node at address `addr`; the
assertion is `(addr & 0x1) == 0`. -/
def rbt_node_init (addr : Nat) (node : packed_link_t) : Option packed_link_t :=
  if addr &&& 1 = 0 then
    some (rbtnode_set_red (rbtnode_set_right (rbtnode_set_left node 0) 0))
  else none

/-- The node with three independent fields that the link words stand for. -/
def abstract (node : packed_link_t) : plain_node_t :=
  { left := rbtnode_get_left node, right := rbtnode_get_right node,
    red := rbtnode_get_red node }

end Packed

/-- Laws of a three-way comparator under which keys that compare equal are ordered
alike against every other key. -/
structure comparator_weak_order (cmp : Buf → Buf → Int) : Prop where
  laws : comparator_laws cmp
  zero_lt : ∀ a b c, cmp a b = 0 → cmp b c < 0 → cmp a c < 0
  lt_zero : ∀ a b c, cmp a b < 0 → cmp b c = 0 → cmp a c < 0

/-- The constant `RB_MAX_DEPTH`, `sizeof(void *) << 4`, for a pointer of `sizeof_ptr` bytes. -/
def RB_MAX_DEPTH (sizeof_ptr : Nat) : Nat :=
  sizeof_ptr <<< 4

/-- The strengthened form of invariant (f): no node has a red right child. -/
def no_red_right : map_node_t → Bool
  | .nil => true
  | .node l _ _ _ r => !rbtnode_nonnull_red r && no_red_right l && no_red_right r

/-- Both subtrees of a node are free of a red node below a red node. -/
def children_no_red_red : map_node_t → Bool
  | .nil => false
  | .node l _ _ _ r => no_red_red l && no_red_red r

/-- What the unwind of `rb_insert` hands up from a subtree `t` that satisfied the
invariants.  After a `return` the subtree is in order again, with the root colour
and the black height it had.  Otherwise the node handed up has the black height of
`t` and no red right child; it has no red node below a red node where `t` had a
black root or was empty, and where `t` had a red root it is red and only its
own left child may be red as well. -/
def insert_outcome_ok (t : map_node_t) : rb_unwind_t → Prop
  | .ret cnode =>
    cnode ≠ .nil ∧ no_red_red cnode = true ∧ no_red_right cnode = true ∧
      black_height cnode = black_height t ∧
      rbtnode_nonnull_red cnode = rbtnode_nonnull_red t
  | .next cnode =>
    cnode ≠ .nil ∧ no_red_right cnode = true ∧ black_height cnode = black_height t ∧
      if rbtnode_nonnull_red t then
        rbtnode_nonnull_red cnode = true ∧ children_no_red_red cnode = true
      else no_red_red cnode = true

/-- A tree that satisfies invariants (a) to (f) with a red right child: the black root 2
with the red children 1 and 3. -/
def four_node_tree : map_node_t :=
  .node (leaf 1 1 true) (bytes4 2) (bytes4 2) false (leaf 3 3 true)

/-- What the unwind of `rb_remove` hands up from a subtree that had a root of colour
`red` and `bh` black nodes on every path.  After a `return` the subtree is in
order again with the black height it had, and its root is red only if it was
red.  Otherwise the subtree handed up is in order with a black root, in the place
of a subtree with a black root, and it is one black node short. -/
def remove_outcome_ok (red : Bool) (bh : Nat) : rb_unwind_t → Prop
  | .ret tnode =>
    no_red_red tnode = true ∧ no_red_right tnode = true ∧ black_height tnode = some bh ∧
      (rbtnode_nonnull_red tnode = true → red = true)
  | .next tnode =>
    no_red_red tnode = true ∧ no_red_right tnode = true ∧
      (∃ b, black_height tnode = some b ∧ b + 1 = bh) ∧
      rbtnode_nonnull_red tnode = false ∧ red = false

/-- How `rb_remove` goes on through the entries `above` (bottom first) once the
iteration below them has ended with `u`; the result is the root. -/
def rb_remove_cont (above : List rb_path_entry_t) : rb_unwind_t → Option map_node_t
  | .ret tnode => rb_path_relink above tnode
  | .next tnode => rb_remove_unwind above tnode

/-- The colour and the black height of the subtree at a place on the path, as the entries
`above` that place (bottom first) see it.  Every entry holds a node in order, with
a known black height, whose child on the side of the descent has the colour and
the black height of the place below; the topmost node has colour `topc` and
black height `topb`. -/
def remove_path_ok (topc : Bool) (topb : Nat) :
    Bool → Nat → List rb_path_entry_t → Prop
  | cred, cbh, [] => cred = topc ∧ cbh = topb
  | cred, cbh, e :: above =>
    ∃ l k v c r b, e.node = .node l k v c r ∧ e.cmp ≠ 0 ∧
      no_red_red (.node l k v c r) = true ∧ no_red_right (.node l k v c r) = true ∧
      black_height (.node l k v c r) = some b ∧
      (if e.cmp < 0 then rbtnode_nonnull_red l = cred ∧ black_height l = some cbh
        else rbtnode_nonnull_red r = cred ∧ black_height r = some cbh) ∧
      remove_path_ok topc topb c b above

/-- The in-order sequence of the tree that the entries `above` (bottom first) form
around a subtree with the in-order sequence `xs`. -/
def plug_inorder : List rb_path_entry_t → List (Buf × Buf) → List (Buf × Buf)
  | [], xs => xs
  | e :: above, xs =>
    match e.node with
    | .nil => plug_inorder above xs
    | .node l k v _ r =>
      if e.cmp < 0 then plug_inorder above (xs ++ (k, v) :: inorder r)
      else plug_inorder above (inorder l ++ (k, v) :: xs)

/-- The capacity of the array `rb_path_entry_t path[RB_MAX_DEPTH]` of `rb_insert`, on a
machine with pointers of `sizeof_ptr` bytes: the entries that the descent for
`node` writes, those of the nodes it visits and the one it stops at, are within
the array. -/
def rb_insert_path_fits (sizeof_ptr : Nat) (rbtree : map_internal_t) (node : map_node_t) :
    Bool :=
  match node_key node with
  | none => false
  | some key =>
    decide ((rb_insert_wind rbtree.cmp key rbtree.root).length + 1 ≤ RB_MAX_DEPTH sizeof_ptr)

/-- The tree in which the entries `above` (bottom first) are left as they are around the
subtree `t`: every entry keeps its key, its value, its colour and its child on
the other side, and holds `t`, or the entry below it, on the side of the
descent. -/
def path_plug : List rb_path_entry_t → map_node_t → map_node_t
  | [], t => t
  | e :: above, t =>
    match e.node with
    | .nil => path_plug above t
    | .node l k v c r =>
      if e.cmp < 0 then path_plug above (.node t k v c r)
      else path_plug above (.node l k v c t)

theorem rb_insert_step_spec (l : map_node_t) (k v : Buf) (c : Bool) (r : map_node_t)
    (cmpv : Int) (child : map_node_t) (hc : child ≠ .nil) :
    ∃ u, rb_insert_step ⟨.node l k v c r, cmpv⟩ child = some u ∧ unwind_node u ≠ .nil ∧
      inorder (unwind_node u) =
        if cmpv < 0 then inorder child ++ (k, v) :: inorder r
        else inorder l ++ (k, v) :: inorder child := by
  rcases child with _ | ⟨cl, ck, cv, cc, cr⟩
  · exact absurd rfl hc
  · by_cases h : cmpv < 0
    · rcases cl with _ | ⟨cll, clk, clv, clc, clr⟩ <;> cases cc <;> (try cases clc) <;>
        simp [rb_insert_step, h, rbtnode_set_left, rbtnode_get_red, rbtnode_get_left,
          rbtnode_nonnull_red, rbtnode_in_left, rbtnode_set_black, rbtnode_rotate_right,
          rbtnode_get_right, rbtnode_set_right, unwind_node, inorder]
    · rcases l with _ | ⟨ll, lk, lv, lc, lr⟩ <;> cases cc <;> (try cases lc) <;>
        simp [rb_insert_step, h, rbtnode_set_left, rbtnode_get_red, rbtnode_get_left,
          rbtnode_nonnull_red, rbtnode_in_left, rbtnode_in_right, rbtnode_set_black,
          rbtnode_rotate_left, rbtnode_set_color, rbtnode_set_red,
          rbtnode_get_right, rbtnode_set_right, unwind_node, inorder]

theorem rb_insert_unwind_cons (e : rb_path_entry_t) (above : List rb_path_entry_t)
    (child : map_node_t) :
    rb_insert_unwind (e :: above) child =
      (rb_insert_step e child).bind (rb_insert_resume above) := by
  cases h : rb_insert_step e child with
  | none => simp [rb_insert_unwind, h]
  | some u => cases u <;> simp [rb_insert_unwind, h, rb_insert_resume, Option.map_eq_bind]

theorem rb_path_relink_append (xs ys : List rb_path_entry_t) (t : map_node_t) :
    rb_path_relink (xs ++ ys) t = (rb_path_relink xs t).bind (rb_path_relink ys) := by
  induction xs generalizing t with
  | nil => simp [rb_path_relink]
  | cons e xs ih =>
    by_cases hc : e.cmp < 0
    · simp only [List.cons_append, rb_path_relink, hc, if_true]
      cases rbtnode_set_left e.node t with
      | none => rfl
      | some p => exact ih p
    · simp only [List.cons_append, rb_path_relink, hc, if_false]
      cases rbtnode_set_right e.node t with
      | none => rfl
      | some p => exact ih p

theorem rb_insert_resume_append (xs ys : List rb_path_entry_t) (u : rb_unwind_t) :
    rb_insert_resume (xs ++ ys) u = (rb_insert_resume xs u).bind (rb_insert_resume ys) := by
  induction xs generalizing u with
  | nil => cases u <;> simp [rb_insert_resume, rb_path_relink, rb_insert_unwind]
  | cons e xs ih =>
    cases u with
    | ret cnode =>
      simp only [rb_insert_resume, List.cons_append]
      rw [show e :: (xs ++ ys) = (e :: xs) ++ ys from rfl, rb_path_relink_append]
      cases h : rb_path_relink (e :: xs) cnode <;> simp [rb_insert_resume]
    | next cnode =>
      simp only [rb_insert_resume, List.cons_append, rb_insert_unwind_cons]
      cases rb_insert_step e cnode with
      | none => rfl
      | some w => exact ih w

/-- The loop over the recorded path, seen as a recursion over the tree. -/
theorem rb_insert_unwind_wind (cmp : Buf → Buf → Int) (key : Buf) (child : map_node_t)
    (t : map_node_t) (acc : List rb_path_entry_t) :
    rb_insert_unwind ((rb_insert_wind cmp key t).reverse ++ acc) child =
      (rb_insert_sub cmp key child t).bind (rb_insert_resume acc) := by
  induction t generalizing acc with
  | nil => simp [rb_insert_wind, rb_insert_sub, rb_insert_resume]
  | node l k v c r ihl ihr =>
    by_cases h0 : cmp key k = 0
    · simp [rb_insert_wind, rb_insert_sub, h0, rb_insert_resume]
    · by_cases hlt : cmp key k < 0
      · simp only [rb_insert_wind, rb_insert_sub, h0, hlt, if_true, if_false,
          List.reverse_cons, List.append_assoc, List.singleton_append]
        rw [ihl, Option.bind_assoc]
        congr 1
        funext u
        exact rb_insert_resume_append [_] acc u
      · simp only [rb_insert_wind, rb_insert_sub, h0, hlt, if_true, if_false,
          List.reverse_cons, List.append_assoc, List.singleton_append]
        rw [ihr, Option.bind_assoc]
        congr 1
        funext u
        exact rb_insert_resume_append [_] acc u

theorem rb_insert_resume_nil (u : rb_unwind_t) : rb_insert_resume [] u = some u := by
  cases u <;> simp [rb_insert_resume, rb_path_relink, rb_insert_unwind]

theorem rb_insert_resume_single (l : map_node_t) (k v : Buf) (c : Bool) (r : map_node_t)
    (cmpv : Int) (u : rb_unwind_t) (hu : unwind_node u ≠ .nil) :
    ∃ w, rb_insert_resume [⟨.node l k v c r, cmpv⟩] u = some w ∧ unwind_node w ≠ .nil ∧
      inorder (unwind_node w) =
        if cmpv < 0 then inorder (unwind_node u) ++ (k, v) :: inorder r
        else inorder l ++ (k, v) :: inorder (unwind_node u) := by
  cases u with
  | ret cnode =>
    by_cases h : cmpv < 0 <;>
      simp [rb_insert_resume, rb_path_relink, h, rbtnode_set_left, rbtnode_set_right,
        unwind_node, inorder]
  | next cnode =>
    obtain ⟨w, hw, hn, hi⟩ := rb_insert_step_spec l k v c r cmpv cnode hu
    refine ⟨w, ?_, hn, hi⟩
    show rb_insert_unwind [_] cnode = some w
    rw [rb_insert_unwind_cons, hw]
    exact rb_insert_resume_nil w

/-- The unwind never fails, and it puts the new sequence where the descent stopped. -/
theorem rb_insert_sub_spec (cmp : Buf → Buf → Int) (key : Buf) (child : map_node_t)
    (hc : child ≠ .nil) (t : map_node_t) :
    ∃ u, rb_insert_sub cmp key child t = some u ∧ unwind_node u ≠ .nil ∧
      inorder (unwind_node u) = insert_inorder cmp key (inorder child) t := by
  induction t with
  | nil => exact ⟨.next child, rfl, hc, rfl⟩
  | node l k v c r ihl ihr =>
    by_cases h0 : cmp key k = 0
    · exact ⟨.next child, by simp [rb_insert_sub, h0], hc, by simp [insert_inorder, h0, unwind_node]⟩
    · by_cases hlt : cmp key k < 0
      · obtain ⟨u, hu, hn, hi⟩ := ihl
        obtain ⟨w, hw, hwn, hwi⟩ := rb_insert_resume_single l k v c r (cmp key k) u hn
        refine ⟨w, ?_, hwn, ?_⟩
        · simp [rb_insert_sub, h0, hlt, hu, hw]
        · simp [hwi, hlt, hi, insert_inorder, h0]
      · obtain ⟨u, hu, hn, hi⟩ := ihr
        obtain ⟨w, hw, hwn, hwi⟩ := rb_insert_resume_single l k v c r (cmp key k) u hn
        refine ⟨w, ?_, hwn, ?_⟩
        · simp [rb_insert_sub, h0, hlt, hu, hw]
        · simp [hwi, hlt, hi, insert_inorder, h0]

/-- The model of `rb_insert`, with its path of any length, gives a result on every tree;
only the root of the map changes, and the in-order sequence of the new tree is
that of the old one with the new pair put where the descent stopped. -/
theorem rb_insert_spec (obj : map_internal_t) (l : map_node_t) (k v : Buf) (c : Bool)
    (r : map_node_t) :
    ∃ root, rb_insert obj (.node l k v c r) = some { obj with root := root } ∧
      root ≠ .nil ∧ inorder root = insert_inorder obj.cmp k [(k, v)] obj.root := by
  obtain ⟨u, hu, hn, hi⟩ :=
    rb_insert_sub_spec obj.cmp k (.node .nil k v true .nil) (by simp) obj.root
  have hloop := rb_insert_unwind_wind obj.cmp k (.node .nil k v true .nil) obj.root []
  rw [List.append_nil, hu] at hloop
  simp only [Option.some_bind, rb_insert_resume_nil] at hloop
  cases u with
  | ret cnode =>
    refine ⟨cnode, ?_, hn, ?_⟩
    · simp [rb_insert, rbt_node_init, rbtnode_set_left, rbtnode_set_right, rbtnode_set_red,
        node_key, rbtnode_get_left, rbtnode_get_right, c_assert, hloop]
    · simpa [unwind_node, inorder] using hi
  | next cnode =>
    rcases cnode with _ | ⟨cl, ck, cv, cc, cr⟩
    · exact absurd rfl hn
    · refine ⟨.node cl ck cv false cr, ?_, by simp, ?_⟩
      · simp [rb_insert, rbt_node_init, rbtnode_set_left, rbtnode_set_right, rbtnode_set_red,
          node_key, rbtnode_get_left, rbtnode_get_right, c_assert, hloop, rbtnode_set_black]
      · simpa [unwind_node, inorder] using hi

/-! ## The in-order sequence under insertion of a fresh key -/

theorem insert_inorder_perm (cmp : Buf → Buf → Int) (key : Buf) (new : List (Buf × Buf))
    (t : map_node_t) (hfresh : ∀ p ∈ inorder t, cmp key p.1 ≠ 0) :
    (insert_inorder cmp key new t).Perm (new ++ inorder t) := by
  induction t with
  | nil => simp [insert_inorder, inorder]
  | node l k v c r ihl ihr =>
    have h0 : cmp key k ≠ 0 := hfresh (k, v) (by simp [inorder])
    have hl : ∀ p ∈ inorder l, cmp key p.1 ≠ 0 := fun p hp =>
      hfresh p (by simp [inorder, hp])
    have hr : ∀ p ∈ inorder r, cmp key p.1 ≠ 0 := fun p hp =>
      hfresh p (by simp [inorder, hp])
    by_cases hlt : cmp key k < 0
    · simp only [insert_inorder, h0, hlt, if_true, if_false, inorder]
      rw [← List.append_assoc]
      exact (ihl hl).append_right _
    · simp only [insert_inorder, h0, hlt, if_false, inorder]
      refine ((List.Perm.cons _ (ihr hr)).append_left _).trans ?_
      refine (List.perm_middle).trans ?_
      refine List.Perm.trans ?_ (List.Perm.append_left new List.perm_middle.symm)
      refine List.Perm.trans ?_ List.perm_middle.symm
      exact List.Perm.cons _ (List.perm_append_comm_assoc _ _ _)

theorem insert_inorder_sorted (cmp : Buf → Buf → Int) (hcmp : comparator_laws cmp)
    (key val : Buf) (t : map_node_t)
    (hs : (inorder t).Pairwise fun a b => cmp a.1 b.1 < 0)
    (hfresh : ∀ p ∈ inorder t, cmp key p.1 ≠ 0) :
    (insert_inorder cmp key [(key, val)] t).Pairwise fun a b => cmp a.1 b.1 < 0 := by
  induction t with
  | nil => simp [insert_inorder]
  | node l k v c r ihl ihr =>
    have h0 : cmp key k ≠ 0 := hfresh (k, v) (by simp [inorder])
    have hl : ∀ p ∈ inorder l, cmp key p.1 ≠ 0 := fun p hp =>
      hfresh p (by simp [inorder, hp])
    have hr : ∀ p ∈ inorder r, cmp key p.1 ≠ 0 := fun p hp =>
      hfresh p (by simp [inorder, hp])
    simp only [inorder, List.pairwise_append, List.pairwise_cons] at hs
    obtain ⟨hsl, ⟨hkr, hsr⟩, hcross⟩ := hs
    by_cases hlt : cmp key k < 0
    · simp only [insert_inorder, h0, hlt, if_true, if_false, List.pairwise_append,
        List.pairwise_cons]
      refine ⟨ihl hsl hl, ⟨hkr, hsr⟩, ?_⟩
      intro a ha b hb
      have ha2 := (insert_inorder_perm cmp key [(key, val)] l hl).mem_iff.mp ha
      simp only [List.singleton_append, List.mem_cons] at ha2 hb
      rcases ha2 with rfl | ha2
      · rcases hb with rfl | hb
        · exact hlt
        · exact hcmp.trans _ _ _ hlt (hkr b hb)
      · exact hcross a ha2 b (by simpa using hb)
    · have hgt : cmp k key < 0 := (hcmp.antisymm k key).mpr (by omega)
      simp only [insert_inorder, h0, hlt, if_false, List.pairwise_append,
        List.pairwise_cons]
      have hmem : ∀ b ∈ insert_inorder cmp key [(key, val)] r,
          b = (key, val) ∨ b ∈ inorder r := by
        intro b hb
        have := (insert_inorder_perm cmp key [(key, val)] r hr).mem_iff.mp hb
        simpa using this
      refine ⟨hsl, ⟨?_, ihr hsr hr⟩, ?_⟩
      · intro b hb
        rcases hmem b hb with rfl | hb2
        · exact hgt
        · exact hkr b hb2
      · intro a ha b hb
        simp only [List.mem_cons] at hb
        rcases hb with rfl | hb
        · exact hcross a ha _ (by simp)
        · rcases hmem b hb with rfl | hb2
          · exact hcmp.trans _ _ _ (hcross a ha (k, v) (by simp)) hgt
          · exact hcross a ha b (by simp [hb2])

/-- On a tree whose in-order keys increase strictly, the search for a stored key stops at
the node that stores it. -/
theorem rb_search_loop_hit (cmp : Buf → Buf → Int) (hcmp : comparator_laws cmp)
    (key val : Buf) (t : map_node_t)
    (hs : (inorder t).Pairwise fun a b => cmp a.1 b.1 < 0)
    (hmem : (key, val) ∈ inorder t) :
    ∃ l c r, rb_search_loop cmp key t = .node l key val c r := by
  induction t with
  | nil => simp [inorder] at hmem
  | node l k v c r ihl ihr =>
    simp only [inorder, List.pairwise_append, List.pairwise_cons] at hs
    obtain ⟨hsl, ⟨hkr, hsr⟩, hcross⟩ := hs
    simp only [inorder, List.mem_append, List.mem_cons] at hmem
    rcases hmem with hm | hm | hm
    · have hlt : cmp key k < 0 := hcross (key, val) hm (k, v) (by simp)
      have h0 : cmp key k ≠ 0 := by omega
      simpa [rb_search_loop, h0, hlt] using ihl hsl hm
    · obtain ⟨rfl, rfl⟩ := Prod.mk.inj hm
      exact ⟨l, c, r, by simp [rb_search_loop, hcmp.refl]⟩
    · have hgt : 0 < cmp key k := (hcmp.antisymm k key).mp (hkr (key, val) hm)
      have h0 : cmp key k ≠ 0 := by omega
      have hlt : ¬ cmp key k < 0 := by omega
      simpa [rb_search_loop, h0, hlt] using ihr hsr hm

/-! ## The facade -/

theorem cmp_int_laws : comparator_laws cmp_int where
  refl := fun a => by simp [cmp_int]
  antisymm := fun a b => by simp only [cmp_int]; omega
  trans := fun a b c => by simp only [cmp_int]; omega

theorem comparator_laws.ne_symm {cmp : Buf → Buf → Int} (hcmp : comparator_laws cmp)
    (a b : Buf) (h : cmp a b ≠ 0) : cmp b a ≠ 0 := by
  have h1 := hcmp.antisymm a b
  have h2 := hcmp.antisymm b a
  omega

/-- The model of `map_insert` with buffers of the sizes of the map: it gives a result,
returns `true`, and changes the root only. -/
theorem map_insert_spec (obj : map_internal_t) (key val : Buf)
    (hk : key.length = obj.key_size) (hv : val.length = obj.val_size) :
    ∃ root, map_insert obj (some key) (some val) = some ({ obj with root := root }, true) ∧
      inorder root = insert_inorder obj.cmp key [(key, val)] obj.root := by
  obtain ⟨root, h, -, hi⟩ := rb_insert_spec obj .nil key val false .nil
  refine ⟨root, ?_, hi⟩
  have hkey : memcpy key obj.key_size = key := List.take_of_length_le hk.le
  have hval : memcpy val obj.val_size = val := List.take_of_length_le hv.le
  simp [map_insert, map_create_node, hkey, hval, h]

theorem map_insert_all_spec (cmp : Buf → Buf → Int) (hcmp : comparator_laws cmp)
    (kvs : List (Buf × Buf)) :
    ∀ obj : map_internal_t, obj.cmp = cmp →
      (∀ kv ∈ kvs, kv.1.length = obj.key_size ∧ kv.2.length = obj.val_size) →
      kvs.Pairwise (fun a b => cmp a.1 b.1 ≠ 0) →
      (inorder obj.root).Pairwise (fun a b => cmp a.1 b.1 < 0) →
      (∀ kv ∈ kvs, ∀ p ∈ inorder obj.root, cmp kv.1 p.1 ≠ 0) →
      ∃ root, map_insert_all obj kvs = some { obj with root := root } ∧
        (inorder root).Pairwise (fun a b => cmp a.1 b.1 < 0) ∧
        (inorder root).Perm (kvs ++ inorder obj.root) := by
  induction kvs with
  | nil =>
    intro obj _ _ _ hs _
    exact ⟨obj.root, rfl, hs, by simp⟩
  | cons kv rest ih =>
    intro obj hc hsize hdist hs hfresh
    obtain ⟨root1, h1, hi1⟩ := map_insert_spec obj kv.1 kv.2
      (hsize kv (by simp)).1 (hsize kv (by simp)).2
    rw [hc] at hi1
    have hkvfresh : ∀ p ∈ inorder obj.root, cmp kv.1 p.1 ≠ 0 := hfresh kv (by simp)
    have hperm1 : (inorder root1).Perm (kv :: inorder obj.root) := by
      rw [hi1]
      exact insert_inorder_perm cmp kv.1 [(kv.1, kv.2)] obj.root hkvfresh
    have hs1 : (inorder root1).Pairwise (fun a b => cmp a.1 b.1 < 0) := by
      rw [hi1]
      exact insert_inorder_sorted cmp hcmp kv.1 kv.2 obj.root hs hkvfresh
    rw [List.pairwise_cons] at hdist
    obtain ⟨root, h2, hs2, hperm2⟩ := ih { obj with root := root1 } hc
      (fun q hq => hsize q (by simp [hq])) hdist.2 hs1
      (by
        intro q hq p hp
        rcases List.mem_cons.mp (hperm1.mem_iff.mp hp) with rfl | hp2
        · exact hcmp.ne_symm _ _ (hdist.1 q hq)
        · exact hfresh q (by simp [hq]) p hp2)
    refine ⟨root, ?_, hs2, ?_⟩
    · simp only [map_insert_all, h1, Option.some_bind]
      exact h2
    · refine hperm2.trans ?_
      refine (List.Perm.append_left rest hperm1).trans ?_
      exact List.perm_middle

/-! ## The claims -/

/-- C1, the code at the failing input: a second `map_insert` with a key that is present
does not leave the tree as it was.  After insert(10, "a") and insert(10, "b") the
lookup of 10 returns a node holding "b"; and inserting 2 once more into the tree
built from 1, 2, 3 leaves a single node, the two children of the old node 2
being lost. -/
theorem C1_duplicate_insert_replaces_node :
    (map_run (map_new 4 1 cmp_int)
        [.insert (bytes4 10) [97], .insert (bytes4 10) [98]]).map
        (fun m => (map_find m (bytes4 10)).node)
      = some (.node .nil (bytes4 10) [98] false .nil) ∧
    (map_run int_map [ins 1 1, ins 2 2, ins 3 3]).map (fun m => m.root)
      = some (.node (leaf 1 1 false) (bytes4 2) (bytes4 2) false (leaf 3 3 false)) ∧
    (map_run int_map [ins 1 1, ins 2 2, ins 3 3, ins 2 9]).map (fun m => m.root)
      = some (leaf 2 9 false) := by
  decide

/-- C2, counterexample: in a map that holds key 10 (the lookup is a hit) a further
`map_insert` of key 10 returns `true`, the very value returned by the insert of
the absent key. -/
theorem C2_duplicate_insert_returns_success :
    (map_insert int_map (some (bytes4 10)) (some (bytes4 1))).map Prod.snd = some true ∧
    (map_run int_map [ins 10 1]).map (fun m => map_at_end m (map_find m (bytes4 10)))
      = some false ∧
    ((map_run int_map [ins 10 1]).bind fun m =>
      (map_insert m (some (bytes4 10)) (some (bytes4 2))).map Prod.snd) = some true := by
  decide

/-- C2, amended: on every map, for every key and value, a `NULL` buffer included, whether
or not the key is present, `map_insert` runs to completion and returns `true`
when the descent fits the path array of `rb_insert`.  The list of the model takes
a descent of any length, so this condition is what keeps the statement to the
calls in which the C program stays within `path[RB_MAX_DEPTH]`. -/
theorem C2_map_insert_returns_true (sizeof_ptr : Nat) (obj : map_internal_t)
    (key val : Option Buf)
    (_hfit : rb_insert_path_fits sizeof_ptr obj
      (map_create_node key val obj.key_size obj.val_size) = true) :
    (map_insert obj key val).map Prod.snd = some true := by
  obtain ⟨k, v, hnode⟩ : ∃ k v, map_create_node key val obj.key_size obj.val_size =
      .node .nil k v false .nil := ⟨_, _, rfl⟩
  obtain ⟨root, h, -, -⟩ := rb_insert_spec obj .nil k v false .nil
  simp [map_insert, hnode, h]

/-- C2 at the map that holds key 10 and a further insert of key 10, on a machine with
pointers of 8 bytes. -/
theorem C2_map_insert_returns_true_witness :
    rb_insert_path_fits 8 (leaf_map 10)
      (map_create_node (some (bytes4 10)) (some (bytes4 2)) (leaf_map 10).key_size
        (leaf_map 10).val_size) = true ∧
    (map_insert (leaf_map 10) (some (bytes4 10)) (some (bytes4 2))).map Prod.snd = some true :=
  ⟨by decide, C2_map_insert_returns_true 8 (leaf_map 10) (some (bytes4 10)) (some (bytes4 2))
    (by decide)⟩

/-- C3: after `map_insert` of pairwise-distinct keys (buffers of the sizes of the map)
into a new map, under a comparator that is an order, `map_find` on every key
inserted is a hit at a node that holds this key and exactly the value supplied
with it. -/
theorem C3_find_returns_inserted_value (s1 s2 : Nat) (cmp : Buf → Buf → Int)
    (hcmp : comparator_laws cmp) (kvs : List (Buf × Buf))
    (hsize : ∀ kv ∈ kvs, kv.1.length = s1 ∧ kv.2.length = s2)
    (hdist : kvs.Pairwise fun a b => cmp a.1 b.1 ≠ 0) :
    ∃ m, map_insert_all (map_new s1 s2 cmp) kvs = some m ∧
      ∀ kv ∈ kvs, map_at_end m (map_find m kv.1) = false ∧
        ∃ l c r, (map_find m kv.1).node = .node l kv.1 kv.2 c r := by
  obtain ⟨root, h, hs, hperm⟩ := map_insert_all_spec cmp hcmp kvs (map_new s1 s2 cmp) rfl
    hsize hdist (by simp [map_new, inorder]) (by simp [map_new, inorder])
  refine ⟨_, h, ?_⟩
  intro kv hkv
  have hmem : (kv.1, kv.2) ∈ inorder root :=
    hperm.mem_iff.mpr (by simp [hkv])
  obtain ⟨l, c, r, hfind⟩ := rb_search_loop_hit cmp hcmp kv.1 kv.2 root hs hmem
  have hnode : (map_find { map_new s1 s2 cmp with root := root } kv.1).node
      = .node l kv.1 kv.2 c r := hfind
  exact ⟨by simp [map_at_end, hnode], l, c, r, hnode⟩

/-- C3 at the scenario of the specification. -/
theorem C3_find_returns_inserted_value_witness :
    (∀ kv ∈ scenario_pairs, kv.1.length = 4 ∧ kv.2.length = 4) ∧
    (scenario_pairs.Pairwise fun a b => cmp_int a.1 b.1 ≠ 0) ∧
    ∃ m, map_insert_all (map_new 4 4 cmp_int) scenario_pairs = some m ∧
      ∀ kv ∈ scenario_pairs, map_at_end m (map_find m kv.1) = false ∧
        ∃ l c r, (map_find m kv.1).node = .node l kv.1 kv.2 c r :=
  ⟨by decide, by decide,
    C3_find_returns_inserted_value 4 4 cmp_int cmp_int_laws scenario_pairs
      (by decide) (by decide)⟩

/-- C4: after `map_insert` of pairwise-distinct keys (buffers of the sizes of the map)
into a new map, under a comparator that is an order, the in-order traversal of
the keys is strictly increasing and is a rearrangement of the keys inserted. -/
theorem C4_inorder_is_sorted_keys (s1 s2 : Nat) (cmp : Buf → Buf → Int)
    (hcmp : comparator_laws cmp) (kvs : List (Buf × Buf))
    (hsize : ∀ kv ∈ kvs, kv.1.length = s1 ∧ kv.2.length = s2)
    (hdist : kvs.Pairwise fun a b => cmp a.1 b.1 ≠ 0) :
    ∃ m, map_insert_all (map_new s1 s2 cmp) kvs = some m ∧
      (inorder_keys m.root).Pairwise (fun a b => cmp a b < 0) ∧
      (inorder_keys m.root).Perm (kvs.map Prod.fst) := by
  obtain ⟨root, h, hs, hperm⟩ := map_insert_all_spec cmp hcmp kvs (map_new s1 s2 cmp) rfl
    hsize hdist (by simp [map_new, inorder]) (by simp [map_new, inorder])
  refine ⟨_, h, ?_, ?_⟩
  · simpa [inorder_keys, List.pairwise_map] using hs
  · simpa [inorder_keys, map_new, inorder] using hperm.map Prod.fst

/-- C4 at the scenario of the specification: inserting 10, 20, 5, 15, 25 gives the
in-order keys 5, 10, 15, 20, 25. -/
theorem C4_inorder_is_sorted_keys_witness :
    (∀ kv ∈ scenario_pairs, kv.1.length = 4 ∧ kv.2.length = 4) ∧
    (scenario_pairs.Pairwise fun a b => cmp_int a.1 b.1 ≠ 0) ∧
    (∃ m, map_insert_all (map_new 4 4 cmp_int) scenario_pairs = some m ∧
      (inorder_keys m.root).Pairwise (fun a b => cmp_int a b < 0) ∧
      (inorder_keys m.root).Perm (scenario_pairs.map Prod.fst)) ∧
    (map_insert_all (map_new 4 4 cmp_int) scenario_pairs).map (fun m => inorder_keys m.root)
      = some [bytes4 5, bytes4 10, bytes4 15, bytes4 20, bytes4 25] :=
  ⟨by decide, by decide,
    C4_inorder_is_sorted_keys 4 4 cmp_int cmp_int_laws scenario_pairs (by decide) (by decide),
    by decide⟩

/-- C5, the code at the failing input: the tree built from 1, 2, 3 satisfies the
red-black invariants, and after one more insert of key 1 the paths from the root
no longer pass through the same number of black nodes (the black node 1 has been
replaced by a red one). -/
theorem C5_duplicate_insert_breaks_black_height :
    (map_run int_map [ins 1 1, ins 2 2, ins 3 3]).map (fun m => rb_invariants m.root)
      = some true ∧
    (map_run int_map [ins 1 1, ins 2 2, ins 3 3, ins 1 1]).map (fun m => m.root)
      = some (.node (leaf 1 1 true) (bytes4 2) (bytes4 2) false (leaf 3 3 false)) ∧
    (map_run int_map [ins 1 1, ins 2 2, ins 3 3, ins 1 1]).map
        (fun m => (black_height m.root).isSome) = some false := by
  decide

/-- C6, the code at the failing input: with key 1 stored under value 20 and key 2 under
value 10, `map_find` on key 1 is a hit, and `map_erase` on that hit does not run
to completion: the descent of `rb_remove` compares value buffers, leaves the
target aside and `nodep` is still `NULL` at `assert(nodep->node == node)`. -/
theorem C6_erase_descends_by_value :
    (map_run int_map [ins 1 20, ins 2 10]).map (fun m => m.root)
      = some (.node (leaf 1 20 true) (bytes4 2) (bytes4 10) false .nil) ∧
    (map_run int_map [ins 1 20, ins 2 10]).map
        (fun m => map_at_end m (map_find m (bytes4 1))) = some false ∧
    (map_run int_map [ins 1 20, ins 2 10]).map
        (fun m => (rb_remove_wind m.cmp (bytes4 20) m.root).2) = some none ∧
    (map_run int_map [ins 1 20, ins 2 10, ers 1]).isNone = true := by
  decide

/-- C7, the code at the failing input: with keys 1 and 2 both stored under value 5,
both lookups are hits, and `map_erase` on the hit for key 1 does not run to
completion: the descent of `rb_remove` compares value buffers and stops at the
node of key 2, so that `assert(nodep->node == node)` fails. -/
theorem C7_erase_stops_at_equal_value :
    (map_run int_map [ins 1 5, ins 2 5]).map
        (fun m => (map_at_end m (map_find m (bytes4 1)), map_at_end m (map_find m (bytes4 2))))
      = some (false, false) ∧
    (map_run int_map [ins 1 5, ins 2 5]).map
        (fun m => (rb_remove_wind m.cmp (bytes4 5) m.root).2) = some (some 0) ∧
    (map_run int_map [ins 1 5, ins 2 5, ers 1]).isNone = true := by
  decide

/-- C8, the code at the failing input: after the inserts of 1, 2, 3, one more insert of
2 and the erase of 2, the map is empty although the keys 3 and 1 were inserted
and never erased. -/
theorem C8_empty_with_live_keys :
    map_empty int_map = true ∧
    (map_run int_map [ins 1 1, ins 2 2, ins 3 3, ins 2 2, ers 2]).map map_empty = some true ∧
    live_keys cmp_int [ins 1 1, ins 2 2, ins 3 3, ins 2 2, ers 2] [] = [bytes4 3, bytes4 1] := by
  decide

/-- C9: after `map_clear` the map is empty, `map_find` on every key is a miss, and the
key size, the value size and the comparator are those of before. -/
theorem C9_map_clear_empties (obj : map_internal_t) (key : Buf) :
    map_empty (map_clear obj).1 = true ∧
    map_at_end (map_clear obj).1 (map_find (map_clear obj).1 key) = true ∧
    (map_clear obj).1.key_size = obj.key_size ∧
    (map_clear obj).1.val_size = obj.val_size ∧
    (map_clear obj).1.cmp = obj.cmp := by
  simp [map_clear, map_empty, map_at_end, map_find, rb_search, rb_search_loop]

/-- C10: `map_erase` with an iterator that holds no node runs to completion and leaves
the map as it was. -/
theorem C10_erase_empty_iterator (obj : map_internal_t) (it : map_iter_t)
    (h : map_at_end obj it = true) : map_erase obj it = some obj := by
  have hnil : it.node = .nil := by simpa [map_at_end] using h
  simp [map_erase, hnil]

/-- C10 at the result of the lookup of the absent key 7 in a map that holds key 20. -/
theorem C10_erase_empty_iterator_witness :
    map_at_end (leaf_map 20) (map_find (leaf_map 20) (bytes4 7)) = true ∧
    map_erase (leaf_map 20) (map_find (leaf_map 20) (bytes4 7)) = some (leaf_map 20) :=
  ⟨by decide, C10_erase_empty_iterator _ _ (by decide)⟩

/-! ## Search -/

theorem bst_order_iff_pairwise (cmp : Buf → Buf → Int) (hcmp : comparator_laws cmp)
    (t : map_node_t) :
    bst_order cmp t ↔ (inorder t).Pairwise fun a b => cmp a.1 b.1 < 0 := by
  induction t with
  | nil => simp [bst_order, inorder]
  | node l k v c r ihl ihr =>
    simp only [bst_order, inorder, List.pairwise_append, List.pairwise_cons, ihl, ihr]
    constructor
    · rintro ⟨hl, hr, hsl, hsr⟩
      refine ⟨hsl, ⟨hr, hsr⟩, ?_⟩
      intro a ha b hb
      rcases List.mem_cons.mp hb with rfl | hb
      · exact hl a ha
      · exact hcmp.trans _ _ _ (hl a ha) (hr b hb)
    · rintro ⟨hsl, ⟨hr, hsr⟩, hcross⟩
      exact ⟨fun p hp => hcross p hp (k, v) (by simp), hr, hsl, hsr⟩

/-- What `rb_search` returns is `NULL` or a node of the tree whose key compares equal. -/
theorem rb_search_loop_sound (cmp : Buf → Buf → Int) (key : Buf) (t : map_node_t) :
    rb_search_loop cmp key t = .nil ∨
      ∃ l k v c r, rb_search_loop cmp key t = .node l k v c r ∧
        .node l k v c r ∈ nodes t ∧ cmp key k = 0 := by
  induction t with
  | nil => exact Or.inl rfl
  | node l k v c r ihl ihr =>
    by_cases h0 : cmp key k = 0
    · exact Or.inr ⟨l, k, v, c, r, by simp [rb_search_loop, h0], by simp [nodes], h0⟩
    · by_cases hlt : cmp key k < 0
      · rcases ihl with h | ⟨l', k', v', c', r', h, hm, hz⟩
        · exact Or.inl (by simp [rb_search_loop, h0, hlt, h])
        · exact Or.inr ⟨l', k', v', c', r', by simp [rb_search_loop, h0, hlt, h],
            by simp [nodes, hm], hz⟩
      · rcases ihr with h | ⟨l', k', v', c', r', h, hm, hz⟩
        · exact Or.inl (by simp [rb_search_loop, h0, hlt, h])
        · exact Or.inr ⟨l', k', v', c', r', by simp [rb_search_loop, h0, hlt, h],
            by simp [nodes, hm], hz⟩

/-- In a tree in search-tree order, the search does not miss a key that compares equal
to the key of some node. -/
theorem rb_search_loop_complete (cmp : Buf → Buf → Int) (hcmp : comparator_laws cmp)
    (key : Buf) (t : map_node_t) (hbst : bst_order cmp t)
    (hex : ∃ p ∈ inorder t, cmp key p.1 = 0) :
    rb_search_loop cmp key t ≠ .nil := by
  induction t with
  | nil => simp [inorder] at hex
  | node l k v c r ihl ihr =>
    obtain ⟨hl, hr, hbl, hbr⟩ := hbst
    obtain ⟨p, hp, hz⟩ := hex
    by_cases h0 : cmp key k = 0
    · simp [rb_search_loop, h0]
    · simp only [inorder, List.mem_append, List.mem_cons] at hp
      by_cases hlt : cmp key k < 0
      · simp only [rb_search_loop, h0, hlt, if_true, if_false]
        rcases hp with hp | rfl | hp
        · exact ihl hbl ⟨p, hp, hz⟩
        · exact absurd hz h0
        · have := hcmp.trans _ _ _ hlt (hr p hp)
          omega
      · simp only [rb_search_loop, h0, hlt, if_false]
        have hgt : cmp k key < 0 := (hcmp.antisymm k key).mpr (by omega)
        rcases hp with hp | rfl | hp
        · have h1 := hcmp.trans _ _ _ (hl p hp) hgt
          have h2 := (hcmp.antisymm p.1 key).mp h1
          omega
        · exact absurd hz h0
        · exact ihr hbr ⟨p, hp, hz⟩

/-- The in-order sequence lists the key and the value of every node. -/
theorem mem_inorder_of_mem_nodes (l : map_node_t) (k v : Buf) (c : Bool) (r t : map_node_t)
    (h : .node l k v c r ∈ nodes t) : (k, v) ∈ inorder t := by
  induction t with
  | nil => simp [nodes] at h
  | node l' k' v' c' r' ihl ihr =>
    simp only [nodes, List.mem_append, List.mem_cons] at h
    simp only [inorder, List.mem_append, List.mem_cons]
    rcases h with h | h | h
    · exact Or.inl (ihl h)
    · injection h with _ hk hv
      exact Or.inr (Or.inl (by rw [hk, hv]))
    · exact Or.inr (Or.inr (ihr h))

/-- C11: on a tree in strict search-tree order, under a comparator that is an order,
`map_find` returns a node of the tree whose key compares equal to the key looked
up exactly when the tree has such a node, and an empty iterator otherwise.  The
search is a function of the map and the key only: it has no effect on the map. -/
theorem C11_search_finds_equal_key (obj : map_internal_t) (hcmp : comparator_laws obj.cmp)
    (hbst : bst_order obj.cmp obj.root) (key : Buf) :
    ((∃ l k v c r, (map_find obj key).node = .node l k v c r ∧
        .node l k v c r ∈ nodes obj.root ∧ obj.cmp key k = 0) ↔
      ∃ p ∈ inorder obj.root, obj.cmp key p.1 = 0) ∧
    (map_at_end obj (map_find obj key) = true ↔
      ¬ ∃ p ∈ inorder obj.root, obj.cmp key p.1 = 0) := by
  have hsound := rb_search_loop_sound obj.cmp key obj.root
  have hcomplete := rb_search_loop_complete obj.cmp hcmp key obj.root hbst
  simp only [map_find, rb_search, map_at_end, decide_eq_true_eq]
  constructor
  · constructor
    · rintro ⟨l, k, v, c, r, -, hm, hz⟩
      exact ⟨(k, v), mem_inorder_of_mem_nodes l k v c r _ hm, hz⟩
    · intro hex
      rcases hsound with h | h
      · exact absurd h (hcomplete hex)
      · exact h
  · constructor
    · intro hnil hex
      exact hcomplete hex hnil
    · intro hno
      rcases hsound with h | ⟨l, k, v, c, r, -, hm, hz⟩
      · exact h
      · exact absurd ⟨(k, v), mem_inorder_of_mem_nodes l k v c r _ hm, hz⟩ hno

/-- C11 at the tree built from the keys 1, 2, 3 and the key 3. -/
theorem C11_search_finds_equal_key_witness :
    bst_order three_map.cmp three_map.root ∧
    ((∃ l k v c r, (map_find three_map (bytes4 3)).node = .node l k v c r ∧
        .node l k v c r ∈ nodes three_map.root ∧ three_map.cmp (bytes4 3) k = 0) ↔
      ∃ p ∈ inorder three_map.root, three_map.cmp (bytes4 3) p.1 = 0) :=
  ⟨by simp [bst_order, inorder, leaf, three_map, three_tree, int_map, map_new]; decide,
    (C11_search_finds_equal_key three_map cmp_int_laws
      (by simp [bst_order, inorder, leaf, three_map, three_tree, int_map, map_new]; decide)
      (bytes4 3)).1⟩

/-- C13, the code at the failing input: two trees with the same shape, colours and keys
(black root 2, red left child 1) and different values.  Where the values are the
keys, `rb_remove` of node 1 leaves the single node 2; where node 1 holds 20 and
node 2 holds 10, `rb_remove` of node 1 does not run to completion. -/
theorem C13_remove_path_depends_on_values :
    rb_remove_root cmp_int (two_tree 1 2) (leaf 1 1 true) = some (leaf 2 2 false) ∧
    rb_remove_root cmp_int (two_tree 20 10) (leaf 1 20 true) = none ∧
    (rb_remove_wind cmp_int (bytes4 1) (two_tree 1 2)).2 = some 1 ∧
    (rb_remove_wind cmp_int (bytes4 20) (two_tree 20 10)).2 = none := by
  decide

/-! ## Height -/

theorem rb_insert_step_height (l : map_node_t) (k v : Buf) (c : Bool) (r : map_node_t)
    (cmpv : Int) (child : map_node_t) (u : rb_unwind_t)
    (hu : rb_insert_step ⟨.node l k v c r, cmpv⟩ child = some u)
    (hchild : height child ≤ (if cmpv < 0 then height l else height r) + 1) :
    height (unwind_node u) ≤ height (.node l k v c r) + 1 := by
  rcases child with _ | ⟨cl, ck, cv, cc, cr⟩
  · simp [rb_insert_step, rbtnode_get_red, rbtnode_set_left, rbtnode_set_right] at hu
  · by_cases h : cmpv < 0
    · simp only [h, if_true] at hchild
      rcases cl with _ | ⟨cll, clk, clv, clc, clr⟩ <;> cases cc <;> (try cases clc) <;>
        simp [rb_insert_step, h, rbtnode_set_left, rbtnode_get_red, rbtnode_get_left,
          rbtnode_nonnull_red, rbtnode_in_left, rbtnode_set_black, rbtnode_rotate_right,
          rbtnode_get_right, rbtnode_set_right] at hu <;>
        subst hu <;> simp only [unwind_node, height] at hchild ⊢ <;> omega
    · simp only [h, if_false] at hchild
      rcases l with _ | ⟨ll, lk, lv, lc, lr⟩ <;> cases cc <;> (try cases lc) <;>
        simp [rb_insert_step, h, rbtnode_set_left, rbtnode_get_red, rbtnode_get_left,
          rbtnode_nonnull_red, rbtnode_in_left, rbtnode_in_right, rbtnode_set_black,
          rbtnode_rotate_left, rbtnode_set_color, rbtnode_set_red,
          rbtnode_get_right, rbtnode_set_right] at hu <;>
        subst hu <;> simp only [unwind_node, height] at hchild ⊢ <;> omega

/-- The function `rb_insert` as the recursion over the tree followed by the last
statements. -/
theorem rb_insert_eq_sub (obj : map_internal_t) (l : map_node_t) (k v : Buf) (c : Bool)
    (r : map_node_t) :
    rb_insert obj (.node l k v c r) =
      (rb_insert_sub obj.cmp k (.node .nil k v true .nil) obj.root).bind
        (rb_insert_finish obj) := by
  have hloop := rb_insert_unwind_wind obj.cmp k (.node .nil k v true .nil) obj.root []
  rw [List.append_nil] at hloop
  simp only [rb_insert, rbt_node_init, rbtnode_set_left, rbtnode_set_right, rbtnode_set_red,
    node_key, rbtnode_get_left, rbtnode_get_right, c_assert, Option.bind_eq_bind,
    Option.some_bind, decide_True, if_true, hloop]
  cases hsub : rb_insert_sub obj.cmp k (.node .nil k v true .nil) obj.root with
  | none => rfl
  | some u =>
    simp only [Option.some_bind, rb_insert_resume_nil]
    cases u with
    | ret cnode => rfl
    | next cnode =>
      cases cnode <;> rfl

theorem rb_insert_resume_next_single (e : rb_path_entry_t) (cnode : map_node_t) :
    rb_insert_resume [e] (.next cnode) = rb_insert_step e cnode := by
  show rb_insert_unwind [e] cnode = _
  rw [rb_insert_unwind_cons]
  cases rb_insert_step e cnode with
  | none => rfl
  | some w => exact rb_insert_resume_nil w

theorem rb_insert_sub_height (cmp : Buf → Buf → Int) (key : Buf) (child : map_node_t)
    (hchild : height child ≤ 1) (t : map_node_t) (u : rb_unwind_t)
    (hu : rb_insert_sub cmp key child t = some u) :
    height (unwind_node u) ≤ height t + 1 := by
  induction t generalizing u with
  | nil =>
    simp only [rb_insert_sub, Option.some.injEq] at hu
    subst hu
    simpa [unwind_node, height] using hchild
  | node l k v c r ihl ihr =>
    by_cases h0 : cmp key k = 0
    · simp only [rb_insert_sub, h0, if_true, Option.some.injEq] at hu
      subst hu
      simp only [unwind_node, height]
      omega
    · by_cases hlt : cmp key k < 0
      · simp only [rb_insert_sub, h0, hlt, if_true, if_false] at hu
        cases hsub : rb_insert_sub cmp key child l with
        | none => simp [hsub] at hu
        | some u1 =>
          rw [hsub, Option.some_bind] at hu
          have h1 := ihl u1 hsub
          cases u1 with
          | ret cnode =>
            simp [rb_insert_resume, rb_path_relink, hlt, rbtnode_set_left] at hu
            subst hu
            simp only [unwind_node, height] at h1 ⊢
            omega
          | next cnode =>
            rw [rb_insert_resume_next_single] at hu
            exact rb_insert_step_height l k v c r (cmp key k) cnode u hu
              (by simpa [hlt, unwind_node] using h1)
      · simp only [rb_insert_sub, h0, hlt, if_false] at hu
        cases hsub : rb_insert_sub cmp key child r with
        | none => simp [hsub] at hu
        | some u1 =>
          rw [hsub, Option.some_bind] at hu
          have h1 := ihr u1 hsub
          cases u1 with
          | ret cnode =>
            simp [rb_insert_resume, rb_path_relink, hlt, rbtnode_set_right] at hu
            subst hu
            simp only [unwind_node, height] at h1 ⊢
            omega
          | next cnode =>
            rw [rb_insert_resume_next_single] at hu
            exact rb_insert_step_height l k v c r (cmp key k) cnode u hu
              (by simpa [hlt, unwind_node] using h1)

/-- C14: `rb_insert` runs to completion, and the height of the tree after it (the nodes
on the longest path from the root to an empty slot) is at most the height before
plus one.  This holds for every tree and every key. -/
theorem C14_insert_height_grows_by_one (obj : map_internal_t) (l : map_node_t) (k v : Buf)
    (c : Bool) (r : map_node_t) :
    ∃ root, rb_insert obj (.node l k v c r) = some { obj with root := root } ∧
      height root ≤ height obj.root + 1 := by
  obtain ⟨u, hu, hn, -⟩ :=
    rb_insert_sub_spec obj.cmp k (.node .nil k v true .nil) (by simp) obj.root
  have hh := rb_insert_sub_height obj.cmp k (.node .nil k v true .nil)
    (by simp [height]) obj.root u hu
  rw [rb_insert_eq_sub, hu, Option.some_bind]
  cases u with
  | ret cnode => exact ⟨cnode, rfl, hh⟩
  | next cnode =>
    rcases cnode with _ | ⟨cl, ck, cv, cc, cr⟩
    · exact absurd rfl hn
    · exact ⟨.node cl ck cv false cr, rfl, by simpa [unwind_node, height] using hh⟩

/-! ## The early return of the unwind loop of insertion -/

theorem path_plug_append (xs ys : List rb_path_entry_t) (t : map_node_t) :
    path_plug (xs ++ ys) t = path_plug ys (path_plug xs t) := by
  induction xs generalizing t with
  | nil => rfl
  | cons e xs ih =>
    obtain ⟨enode, ecmp⟩ := e
    rcases enode with _ | ⟨l, k, v, c, r⟩
    · simpa [path_plug] using ih t
    · by_cases h : ecmp < 0 <;> simp [path_plug, h, ih]

theorem uintptr_and_not_three (x : Nat) : uintptr_and_not x 3 = x - x % 4 := by
  have h := Nat.and_pow_two_sub_one_eq_mod x 2
  simp only [uintptr_and_not]
  norm_num at h
  rw [h]

theorem lor_of_aligned (r c : Nat) (hr : r % 4 = 0) (hc : c < 4) : r ||| c = r + c := by
  have h := Nat.mul_add_lt_is_or (show c < 2 ^ 2 from hc) (r / 4)
  have hr4 : 2 ^ 2 * (r / 4) = r := by omega
  rw [hr4] at h
  exact h.symm

theorem lor_one (x : Nat) : x ||| 1 = x + 1 - x % 2 := by
  have h := Nat.mul_add_lt_is_or (show x % 2 < 2 ^ 1 by omega) (x / 2)
  have h1 := Nat.mul_add_lt_is_or (show 1 < 2 ^ 1 by omega) (x / 2)
  have hx : 2 ^ 1 * (x / 2) + x % 2 = x := by omega
  rw [hx] at h
  rcases Nat.mod_two_eq_zero_or_one x with h0 | h0
  · rw [h0, Nat.or_zero] at h
    rw [h, ← h1]
    omega
  · rw [h0] at h
    rw [h, Nat.or_assoc, Nat.or_self, ← h1]
    omega

/-- C17, counterexample: the link value 6 has its lowest bit clear, as `rbt_node_init`
asserts of an address, and `rbtnode_get_right` after `rbtnode_set_right` with 6
returns 4: the mask `~3` clears the second bit as well. -/
theorem C17_get_right_clears_second_bit :
    (6 : Nat) &&& 1 = 0 ∧
    Packed.rbtnode_get_right (Packed.rbtnode_set_right ⟨0, 0⟩ 6) = 4 := by
  decide

/-- C17, amended: for every node and every link value whose two lowest bits are clear,
the packed representation behaves like a node with three independent fields:
each setter changes the field it names and leaves the two others as they were,
and a node initialised by `rbt_node_init` (at an address whose lowest bit is
clear) is red with both children empty. -/
theorem C17_packed_node_refines_plain_node (node : packed_link_t) (link : Nat) (color : Bool)
    (addr : Nat) (hlink : link % 4 = 0) (haddr : addr % 2 = 0) :
    Packed.abstract (Packed.rbtnode_set_right node link)
      = plain_set_right (Packed.abstract node) link ∧
    Packed.abstract (Packed.rbtnode_set_left node link)
      = plain_set_left (Packed.abstract node) link ∧
    Packed.abstract (Packed.rbtnode_set_color node color)
      = plain_set_color (Packed.abstract node) color ∧
    Packed.abstract (Packed.rbtnode_set_red node)
      = plain_set_color (Packed.abstract node) true ∧
    Packed.abstract (Packed.rbtnode_set_black node)
      = plain_set_color (Packed.abstract node) false ∧
    (Packed.rbt_node_init addr node).map Packed.abstract
      = some { left := 0, right := 0, red := true } := by
  have hmod := Nat.mod_two_eq_zero_or_one node.right_red
  have hlt : node.right_red % 2 < 4 := by omega
  have hset := lor_of_aligned link (node.right_red % 2) hlink hlt
  have hcol : ∀ c : Nat, c < 4 →
      (node.right_red - node.right_red % 4) ||| c = node.right_red - node.right_red % 4 + c :=
    fun c hc => lor_of_aligned _ c (by omega) hc
  have hone := lor_one node.right_red
  have hzero : (0 : Nat) ||| node.right_red % 2 = node.right_red % 2 := by simp
  have hone2 := lor_one (node.right_red % 2)
  refine ⟨?_, ?_, ?_, ?_, ?_, ?_⟩
  · simp only [Packed.abstract, Packed.rbtnode_set_right, Packed.rbtnode_get_left,
      Packed.rbtnode_get_right, Packed.rbtnode_get_red, plain_set_right,
      uintptr_and_not_three, Nat.and_one_is_mod, hset, plain_node_t.mk.injEq,
      true_and, decide_eq_decide]
    omega
  · simp [Packed.abstract, Packed.rbtnode_set_left, Packed.rbtnode_get_left,
      Packed.rbtnode_get_right, Packed.rbtnode_get_red, plain_set_left]
  · have h := hcol color.toNat (by cases color <;> simp)
    simp only [Packed.abstract, Packed.rbtnode_set_color, Packed.rbtnode_get_left,
      Packed.rbtnode_get_right, Packed.rbtnode_get_red, plain_set_color,
      uintptr_and_not_three, Nat.and_one_is_mod, h, plain_node_t.mk.injEq, true_and]
    cases color <;> simp <;> omega
  · simp only [Packed.abstract, Packed.rbtnode_set_red, Packed.rbtnode_get_left,
      Packed.rbtnode_get_right, Packed.rbtnode_get_red, plain_set_color,
      uintptr_and_not_three, Nat.and_one_is_mod, hone, plain_node_t.mk.injEq, true_and,
      decide_eq_true_eq]
    omega
  · have h := Nat.and_one_is_mod (node.right_red - node.right_red % 4)
    simp only [Packed.abstract, Packed.rbtnode_set_black, Packed.rbtnode_get_left,
      Packed.rbtnode_get_right, Packed.rbtnode_get_red, plain_set_color,
      uintptr_and_not_three, Nat.and_one_is_mod, plain_node_t.mk.injEq, true_and,
      decide_eq_false_iff_not]
    omega
  · have ha : addr &&& 1 = 0 := by rw [Nat.and_one_is_mod]; exact haddr
    simp only [Packed.rbt_node_init, ha, if_true, Option.map_some', Packed.abstract,
      Packed.rbtnode_set_red, Packed.rbtnode_set_right, Packed.rbtnode_set_left,
      Packed.rbtnode_get_left, Packed.rbtnode_get_right, Packed.rbtnode_get_red,
      uintptr_and_not_three, Nat.and_one_is_mod, hzero, hone2, Option.some.injEq,
      plain_node_t.mk.injEq, true_and, decide_eq_true_eq]
    omega

/-- C17 at a red node with right link 8, the link value 16 and the address 32. -/
theorem C17_packed_node_refines_plain_node_witness :
    (16 : Nat) % 4 = 0 ∧ (32 : Nat) % 2 = 0 ∧
    Packed.abstract (Packed.rbtnode_set_right ⟨4, 9⟩ 16)
      = plain_set_right (Packed.abstract ⟨4, 9⟩) 16 :=
  ⟨by decide, by decide,
    (C17_packed_node_refines_plain_node ⟨4, 9⟩ 16 true 32 (by decide) (by decide)).1⟩

/-! ## Insertion of a key that is present -/

theorem cmp_int_weak_order : comparator_weak_order cmp_int where
  laws := cmp_int_laws
  zero_lt := fun a b c => by simp only [cmp_int]; omega
  lt_zero := fun a b c => by simp only [cmp_int]; omega

theorem comparator_laws.zero_symm {cmp : Buf → Buf → Int} (hcmp : comparator_laws cmp)
    (a b : Buf) (h : cmp a b = 0) : cmp b a = 0 := by
  have h1 := hcmp.antisymm a b
  have h2 := hcmp.antisymm b a
  omega

/-- The descent of `rb_insert` with a key that compares equal to the key of the node `d`
stops at `d`: the in-order sequence of the subtree of `d` is what is replaced. -/
theorem insert_inorder_at_node (cmp : Buf → Buf → Int) (hcmp : comparator_weak_order cmp)
    (key : Buf) (dl : map_node_t) (k dv : Buf) (dc : Bool) (dr : map_node_t)
    (hkey : cmp key k = 0) (t : map_node_t) (hbst : bst_order cmp t)
    (hd : .node dl k dv dc dr ∈ nodes t) :
    ∃ A B, inorder t = A ++ inorder (.node dl k dv dc dr) ++ B ∧
      ∀ new, insert_inorder cmp key new t = A ++ new ++ B := by
  induction t with
  | nil => simp [nodes] at hd
  | node l k' v' c' r ihl ihr =>
    obtain ⟨hl, hr, hbl, hbr⟩ := hbst
    simp only [nodes, List.mem_append, List.mem_cons] at hd
    rcases hd with hd | hd | hd
    · have hk : cmp k k' < 0 := hl (k, dv) (mem_inorder_of_mem_nodes dl k dv dc dr l hd)
      have hlt : cmp key k' < 0 := hcmp.zero_lt _ _ _ hkey hk
      have h0 : cmp key k' ≠ 0 := by omega
      obtain ⟨A, B, hA, hins⟩ := ihl hbl hd
      refine ⟨A, B ++ (k', v') :: inorder r, ?_, ?_⟩
      · simp only [inorder] at hA ⊢
        rw [hA]
        simp
      · intro new
        simp only [insert_inorder, h0, hlt, if_true, if_false, hins]
        simp
    · injection hd with e1 e2 e3 e4 e5
      subst e1 e2 e3 e4 e5
      refine ⟨[], [], by simp, ?_⟩
      intro new
      simp [insert_inorder, hkey]
    · have hk : cmp k' k < 0 := hr (k, dv) (mem_inorder_of_mem_nodes dl k dv dc dr r hd)
      have hkk : cmp k key = 0 := hcmp.laws.zero_symm _ _ hkey
      have hgt : cmp k' key < 0 := hcmp.lt_zero _ _ _ hk hkk
      have hgt2 : 0 < cmp key k' := (hcmp.laws.antisymm k' key).mp hgt
      have h0 : cmp key k' ≠ 0 := by omega
      have hlt : ¬ cmp key k' < 0 := by omega
      obtain ⟨A, B, hA, hins⟩ := ihr hbr hd
      refine ⟨inorder l ++ (k', v') :: A, B, ?_, ?_⟩
      · simp only [inorder] at hA ⊢
        rw [hA]
        simp
      · intro new
        simp only [insert_inorder, h0, hlt, if_false, hins]
        simp

/-- On a tree whose in-order keys increase strictly, the search for a key stops at the
node whose key compares equal to it. -/
theorem rb_search_loop_hit_equal (cmp : Buf → Buf → Int) (hcmp : comparator_weak_order cmp)
    (key k val : Buf) (hkey : cmp key k = 0) (t : map_node_t)
    (hs : (inorder t).Pairwise fun a b => cmp a.1 b.1 < 0)
    (hmem : (k, val) ∈ inorder t) :
    ∃ l c r, rb_search_loop cmp key t = .node l k val c r := by
  induction t with
  | nil => simp [inorder] at hmem
  | node l k' v' c r ihl ihr =>
    simp only [inorder, List.pairwise_append, List.pairwise_cons] at hs
    obtain ⟨hsl, ⟨hkr, hsr⟩, hcross⟩ := hs
    simp only [inorder, List.mem_append, List.mem_cons] at hmem
    rcases hmem with hm | hm | hm
    · have hk : cmp k k' < 0 := hcross (k, val) hm (k', v') (by simp)
      have hlt : cmp key k' < 0 := hcmp.zero_lt _ _ _ hkey hk
      have h0 : cmp key k' ≠ 0 := by omega
      simpa [rb_search_loop, h0, hlt] using ihl hsl hm
    · obtain ⟨rfl, rfl⟩ := Prod.mk.inj hm
      exact ⟨l, c, r, by simp [rb_search_loop, hkey]⟩
    · have hk : cmp k' k < 0 := hkr (k, val) hm
      have hgt : cmp k' key < 0 := hcmp.lt_zero _ _ _ hk (hcmp.laws.zero_symm _ _ hkey)
      have hgt2 : 0 < cmp key k' := (hcmp.laws.antisymm k' key).mp hgt
      have h0 : cmp key k' ≠ 0 := by omega
      have hlt : ¬ cmp key k' < 0 := by omega
      simpa [rb_search_loop, h0, hlt] using ihr hsr hm

/-- The search misses a key that compares equal to no key of the tree. -/
theorem rb_search_loop_miss (cmp : Buf → Buf → Int) (key : Buf) (t : map_node_t)
    (hno : ∀ p ∈ inorder t, cmp key p.1 ≠ 0) : rb_search_loop cmp key t = .nil := by
  rcases rb_search_loop_sound cmp key t with h | ⟨l, k, v, c, r, -, hm, hz⟩
  · exact h
  · exact absurd hz (hno (k, v) (mem_inorder_of_mem_nodes l k v c r t hm))

/-- The descent of `rb_insert` with a key that compares equal to the key of the node `d`
records the ancestors of `d` and stops at the slot that holds `d`. -/
theorem rb_insert_wind_plug_equal (cmp : Buf → Buf → Int) (hcmp : comparator_weak_order cmp)
    (key : Buf) (dl : map_node_t) (k dv : Buf) (dc : Bool) (dr : map_node_t)
    (hkey : cmp key k = 0) (t : map_node_t) (hbst : bst_order cmp t)
    (hd : .node dl k dv dc dr ∈ nodes t) :
    path_plug (rb_insert_wind cmp key t).reverse (.node dl k dv dc dr) = t := by
  induction t with
  | nil => simp [nodes] at hd
  | node l k' v' c' r ihl ihr =>
    obtain ⟨hl, hr, hbl, hbr⟩ := hbst
    simp only [nodes, List.mem_append, List.mem_cons] at hd
    rcases hd with hd | hd | hd
    · have hk : cmp k k' < 0 := hl (k, dv) (mem_inorder_of_mem_nodes dl k dv dc dr l hd)
      have hlt : cmp key k' < 0 := hcmp.zero_lt _ _ _ hkey hk
      have h0 : cmp key k' ≠ 0 := by omega
      simp only [rb_insert_wind, h0, hlt, if_true, if_false, List.reverse_cons,
        path_plug_append, ihl hbl hd]
      simp [path_plug, hlt]
    · injection hd with e1 e2 e3 e4 e5
      subst e1 e2 e3 e4 e5
      simp [rb_insert_wind, hkey, path_plug]
    · have hk : cmp k' k < 0 := hr (k, dv) (mem_inorder_of_mem_nodes dl k dv dc dr r hd)
      have hkk : cmp k key = 0 := hcmp.laws.zero_symm _ _ hkey
      have hgt : cmp k' key < 0 := hcmp.lt_zero _ _ _ hk hkk
      have hgt2 : 0 < cmp key k' := (hcmp.laws.antisymm k' key).mp hgt
      have h0 : cmp key k' ≠ 0 := by omega
      have hlt : ¬ cmp key k' < 0 := by omega
      simp only [rb_insert_wind, h0, hlt, if_false, List.reverse_cons,
        path_plug_append, ihr hbr hd]
      simp [path_plug, hlt]

/-- C18, counterexample: in the tree built from 1, 2, 3 the node `d` with key 3 is the
right child of the root 2 and has no children.  After `rb_insert` of a fresh node
with key 3 and value 9 the fresh node is not in the position of `d` and its
children are not both empty: the unwind has rotated it above node 2, so it is
the root and node 2 is its left child. -/
theorem C18_fresh_node_is_rotated_up :
    three_tree = .node (leaf 1 1 false) (bytes4 2) (bytes4 2) false (leaf 3 3 false) ∧
    leaf 3 3 false ∈ nodes three_map.root ∧
    (rb_insert three_map (leaf 3 9 false)).map (fun m => m.root)
      = some (.node (.node (leaf 1 1 false) (bytes4 2) (bytes4 2) true .nil)
          (bytes4 3) (bytes4 9) false .nil) := by
  decide

/-- C18, amended: in a tree in search-tree order that has a node `d` with key `k`, when the
descent fits the path array (the list of the model takes a descent of any
length), `rb_insert` of a fresh node whose key compares equal to `k` runs to
completion.  The descent records the ancestors of `d` and stops at the slot of
`d`; in the tree that is left the fresh pair stands in the place of the whole
subtree of `d` in the in-order sequence, wherever the unwind has moved the
fresh node, the lookup of `k` returns a node that holds the new key and the new
value, and every key that was stored in the left or the right subtree of `d` is
a miss. -/
theorem C18_equal_key_insert_replaces_subtree (sizeof_ptr : Nat) (obj : map_internal_t)
    (hcmp : comparator_weak_order obj.cmp) (hbst : bst_order obj.cmp obj.root)
    (dl : map_node_t) (k dv : Buf) (dc : Bool) (dr : map_node_t)
    (hd : .node dl k dv dc dr ∈ nodes obj.root)
    (fl : map_node_t) (key val : Buf) (fc : Bool) (fr : map_node_t)
    (hkey : obj.cmp key k = 0)
    (_hfit : rb_insert_path_fits sizeof_ptr obj (.node fl key val fc fr) = true) :
    ∃ root, rb_insert obj (.node fl key val fc fr) = some { obj with root := root } ∧
      path_plug (rb_insert_wind obj.cmp key obj.root).reverse (.node dl k dv dc dr)
        = obj.root ∧
      (∃ A B, inorder obj.root = A ++ inorder (.node dl k dv dc dr) ++ B ∧
        inorder root = A ++ (key, val) :: B) ∧
      (∃ l c r, (map_find { obj with root := root } k).node = .node l key val c r) ∧
      ∀ p ∈ inorder dl ++ inorder dr,
        map_at_end { obj with root := root } (map_find { obj with root := root } p.1) = true := by
  obtain ⟨root, hins, -, hi⟩ := rb_insert_spec obj fl key val fc fr
  obtain ⟨A, B, hA, hsplice⟩ :=
    insert_inorder_at_node obj.cmp hcmp key dl k dv dc dr hkey obj.root hbst hd
  have hroot : inorder root = A ++ (key, val) :: B := by
    rw [hi, hsplice]
    simp
  have hkk : obj.cmp k key = 0 := hcmp.laws.zero_symm _ _ hkey
  have hs := (bst_order_iff_pairwise obj.cmp hcmp.laws obj.root).mp hbst
  rw [hA] at hs
  simp only [inorder, List.pairwise_append, List.pairwise_cons, List.mem_append,
    List.mem_cons] at hs
  obtain ⟨⟨hsA, ⟨hsdl, ⟨hkdr, hsdr⟩, hdlk⟩, hAD⟩, hsB, hDB⟩ := hs
  have hsorted : (inorder root).Pairwise fun a b => obj.cmp a.1 b.1 < 0 := by
    rw [hroot]
    simp only [List.pairwise_append, List.pairwise_cons, List.mem_cons]
    refine ⟨hsA, ⟨?_, hsB⟩, ?_⟩
    · intro b hb
      exact hcmp.zero_lt _ _ _ hkey (hDB (k, dv) (Or.inr (Or.inr (Or.inl rfl))) b hb)
    · intro a ha b hb
      rcases hb with rfl | hb
      · exact hcmp.lt_zero _ _ _ (hAD a ha (k, dv) (Or.inr (Or.inl rfl))) hkk
      · exact hDB a (Or.inl ha) b hb
  refine ⟨root, hins,
    rb_insert_wind_plug_equal obj.cmp hcmp key dl k dv dc dr hkey obj.root hbst hd,
    ⟨A, B, hA, hroot⟩, ?_, ?_⟩
  · exact rb_search_loop_hit_equal obj.cmp hcmp k key val hkk root hsorted
      (by rw [hroot]; simp)
  · intro p hp
    have hmiss : rb_search_loop obj.cmp p.1 root = .nil := by
      apply rb_search_loop_miss
      intro q hq
      rw [hroot] at hq
      simp only [List.mem_append, List.mem_cons] at hq hp
      have hpD : p ∈ A ∨ p ∈ inorder dl ∨ p = (k, dv) ∨ p ∈ inorder dr := by
        rcases hp with hp | hp
        · exact Or.inr (Or.inl hp)
        · exact Or.inr (Or.inr (Or.inr hp))
      rcases hq with hq | rfl | hq
      · have h1 : obj.cmp q.1 p.1 < 0 := by
          rcases hp with hp | hp
          · exact hAD q hq p (Or.inl hp)
          · exact hAD q hq p (Or.inr (Or.inr hp))
        have h2 := (hcmp.laws.antisymm q.1 p.1).mp h1
        omega
      · rcases hp with hp | hp
        · have h1 := hcmp.lt_zero _ _ _ (hdlk p hp (k, dv) (Or.inl rfl)) hkk
          show obj.cmp p.1 key ≠ 0
          omega
        · have h1 := hcmp.zero_lt _ _ _ hkey (hkdr p hp)
          have h2 := (hcmp.laws.antisymm key p.1).mp h1
          show obj.cmp p.1 key ≠ 0
          omega
      · have h1 : obj.cmp p.1 q.1 < 0 := hDB p hpD q hq
        omega
    simp [map_at_end, map_find, rb_search, hmiss]

/-- C18 at the tree built from 1, 2, 3 and a second insert of key 2 with value 9, on a
machine with pointers of 8 bytes. -/
theorem C18_equal_key_insert_replaces_subtree_witness :
    bst_order three_map.cmp three_map.root ∧
    (.node (leaf 1 1 false) (bytes4 2) (bytes4 2) false (leaf 3 3 false)) ∈ nodes three_map.root ∧
    three_map.cmp (bytes4 2) (bytes4 2) = 0 ∧
    rb_insert_path_fits 8 three_map (leaf 2 9 false) = true ∧
    ∃ root, rb_insert three_map (leaf 2 9 false) = some { three_map with root := root } ∧
      path_plug (rb_insert_wind three_map.cmp (bytes4 2) three_map.root).reverse
        (.node (leaf 1 1 false) (bytes4 2) (bytes4 2) false (leaf 3 3 false))
        = three_map.root ∧
      (∃ A B, inorder three_map.root = A ++
          inorder (.node (leaf 1 1 false) (bytes4 2) (bytes4 2) false (leaf 3 3 false)) ++ B ∧
        inorder root = A ++ (bytes4 2, bytes4 9) :: B) ∧
      (∃ l c r, (map_find { three_map with root := root } (bytes4 2)).node
        = .node l (bytes4 2) (bytes4 9) c r) ∧
      ∀ p ∈ inorder (leaf 1 1 false) ++ inorder (leaf 3 3 false),
        map_at_end { three_map with root := root }
          (map_find { three_map with root := root } p.1) = true :=
  ⟨by simp [bst_order, inorder, leaf, three_map, three_tree]; decide,
    by simp [nodes, three_map, three_tree],
    by decide, by decide,
    C18_equal_key_insert_replaces_subtree 8 three_map cmp_int_weak_order
      (by simp [bst_order, inorder, leaf, three_map, three_tree]; decide)
      (leaf 1 1 false) (bytes4 2) (bytes4 2) false (leaf 3 3 false)
      (by simp [nodes, three_map, three_tree])
      .nil (bytes4 2) (bytes4 9) false .nil (by decide) (by decide)⟩

/-! ## Depth of a red-black tree -/

theorem black_height_node (l : map_node_t) (k v : Buf) (c : Bool) (r : map_node_t) (b : Nat)
    (h : black_height (.node l k v c r) = some b) :
    ∃ a, black_height l = some a ∧ black_height r = some a ∧
      b = if c then a else a + 1 := by
  simp only [black_height] at h
  cases hl : black_height l with
  | none => simp [hl] at h
  | some a =>
    cases hr : black_height r with
    | none => simp [hl, hr] at h
    | some a' =>
      simp only [hl, hr] at h
      by_cases hab : a = a'
      · subst hab
        simp only [if_true, Option.some.injEq] at h
        exact ⟨a, rfl, rfl, h.symm⟩
      · simp [hab] at h

/-- In a tree without a red node below a red node and with `b` black nodes on every
path, the height is between `b` and `2 * b` (plus one under a red root), and the
number of nodes is at least `2 ^ b + 2 ^ (height - b) - 2`. -/
theorem rb_height_size (t : map_node_t) :
    ∀ b, no_red_red t = true → black_height t = some b →
      b ≤ height t ∧ height t ≤ 2 * b + (if rbtnode_nonnull_red t then 1 else 0) ∧
      2 ^ b + 2 ^ (height t - b) ≤ tree_size t + 2 := by
  induction t with
  | nil =>
    intro b _ hb
    simp only [black_height, Option.some.injEq] at hb
    subst hb
    simp [height, tree_size, rbtnode_nonnull_red]
  | node l k v c r ihl ihr =>
    intro b hrr hb
    obtain ⟨a, hbl, hbr, hba⟩ := black_height_node l k v c r b hb
    simp only [no_red_red, Bool.and_eq_true, Bool.or_eq_true, Bool.not_eq_true'] at hrr
    obtain ⟨⟨hc, hrl⟩, hrrr⟩ := hrr
    obtain ⟨hl1, hl2, hl3⟩ := ihl a hrl hbl
    obtain ⟨hr1, hr2, hr3⟩ := ihr a hrrr hbr
    have hZl : 1 ≤ 2 ^ (height l - a) := Nat.one_le_two_pow
    have hZr : 1 ≤ 2 ^ (height r - a) := Nat.one_le_two_pow
    simp only [height, tree_size, rbtnode_nonnull_red]
    cases c with
    | true =>
      simp only [if_true] at hba
      subst hba
      have hlb : rbtnode_nonnull_red l = false := by
        rcases hc with hc | hc
        · simp at hc
        · exact hc.1
      have hrb : rbtnode_nonnull_red r = false := by
        rcases hc with hc | hc
        · simp at hc
        · exact hc.2
      simp only [hlb, hrb, Bool.false_eq_true, if_false, Nat.add_zero] at hl2 hr2
      have hYl : 2 ^ (height l - b) ≤ 2 ^ b := Nat.pow_le_pow_right (by omega) (by omega)
      have hYr : 2 ^ (height r - b) ≤ 2 ^ b := Nat.pow_le_pow_right (by omega) (by omega)
      refine ⟨by omega, by simp only [if_true]; omega, ?_⟩
      rcases Nat.le_total (height l) (height r) with hle | hle
      · rw [Nat.max_eq_right hle, show 1 + height r - b = (height r - b) + 1 by omega,
          Nat.pow_succ]
        generalize 2 ^ (height r - b) = Y at *
        generalize 2 ^ (height l - b) = Z at *
        generalize 2 ^ b = X at *
        omega
      · rw [Nat.max_eq_left hle, show 1 + height l - b = (height l - b) + 1 by omega,
          Nat.pow_succ]
        generalize 2 ^ (height l - b) = Y at *
        generalize 2 ^ (height r - b) = Z at *
        generalize 2 ^ b = X at *
        omega
    | false =>
      simp only [Bool.false_eq_true, if_false] at hba
      subst hba
      have hl2' : height l ≤ 2 * a + 1 := by
        split at hl2 <;> omega
      have hr2' : height r ≤ 2 * a + 1 := by
        split at hr2 <;> omega
      refine ⟨by omega, by simp only [Bool.false_eq_true, if_false]; omega, ?_⟩
      rw [Nat.pow_succ]
      rcases Nat.le_total (height l) (height r) with hle | hle
      · rw [Nat.max_eq_right hle, show 1 + height r - (a + 1) = height r - a by omega]
        generalize 2 ^ (height r - a) = Y at *
        generalize 2 ^ (height l - a) = Z at *
        generalize 2 ^ a = X at *
        omega
      · rw [Nat.max_eq_left hle, show 1 + height l - (a + 1) = height l - a by omega]
        generalize 2 ^ (height l - a) = Y at *
        generalize 2 ^ (height r - a) = Z at *
        generalize 2 ^ a = X at *
        omega

theorem rb_insert_wind_length (cmp : Buf → Buf → Int) (key : Buf) (t : map_node_t) :
    (rb_insert_wind cmp key t).length ≤ height t := by
  induction t with
  | nil => simp [rb_insert_wind]
  | node l k v c r ihl ihr =>
    simp only [rb_insert_wind, height]
    split
    · simp
    · split <;> simp only [List.length_cons] <;> omega

theorem rb_remove_successor_length (t : map_node_t) :
    (rb_remove_successor t).length ≤ height t := by
  induction t with
  | nil => simp [rb_remove_successor]
  | node l k v c r ihl _ =>
    simp only [rb_remove_successor, height, List.length_cons]
    omega

theorem rb_remove_wind_length (cmp : Buf → Buf → Int) (val : Buf) (t : map_node_t) :
    (rb_remove_wind cmp val t).1.length ≤ height t := by
  induction t with
  | nil => simp [rb_remove_wind]
  | node l k v c r ihl ihr =>
    have hs := rb_remove_successor_length r
    simp only [rb_remove_wind, height]
    split
    · simp only [List.length_cons]
      omega
    · split <;> simp only [List.length_cons] <;> omega

/-- C15: a tree that satisfies the red-black invariants and holds `n >= 1` nodes has
depth (links on the longest path from the root to a node, the height minus one)
at most twice the binary logarithm of `n`: `2 ^ depth <= n ^ 2`.  And when the
nodes fit into the address space of a pointer of `sizeof_ptr` bytes, the entries
that `rb_insert` and `rb_remove` use in the path array, the nodes of the descent
and the slot after them, are at most `RB_MAX_DEPTH`. -/
theorem C15_depth_at_most_twice_log (t : map_node_t) (hinv : rb_invariants t = true)
    (hn : 1 ≤ tree_size t) :
    2 ^ (height t - 1) ≤ tree_size t ^ 2 ∧
    ∀ sizeof_ptr, 1 ≤ sizeof_ptr → tree_size t < 2 ^ (8 * sizeof_ptr) →
      ∀ (cmp : Buf → Buf → Int) (buf : Buf),
        (rb_insert_wind cmp buf t).length + 1 ≤ RB_MAX_DEPTH sizeof_ptr ∧
        (rb_remove_wind cmp buf t).1.length + 1 ≤ RB_MAX_DEPTH sizeof_ptr := by
  simp only [rb_invariants, Bool.and_eq_true] at hinv
  obtain ⟨⟨⟨hroot, hrr⟩, hbh⟩, -⟩ := hinv
  obtain ⟨b, hb⟩ := Option.isSome_iff_exists.mp hbh
  obtain ⟨h1, h2, h3⟩ := rb_height_size t b hrr hb
  have hblack : rbtnode_nonnull_red t = false := by simpa [root_black] using hroot
  simp only [hblack, Bool.false_eq_true, if_false, Nat.add_zero] at h2
  have hb1 : 1 ≤ b := by
    rcases t with _ | ⟨l, k, v, c, r⟩
    · simp [tree_size] at hn
    · obtain ⟨a, -, -, hba⟩ := black_height_node l k v c r b hb
      simp only [rbtnode_nonnull_red] at hblack
      subst hblack
      simp at hba
      omega
  constructor
  · have hsplit : height t - 1 = (b - 1) + (height t - b) := by omega
    have hX : 2 ^ b = 2 * 2 ^ (b - 1) := by
      rw [show b = (b - 1) + 1 by omega, Nat.pow_succ]
      simp
      omega
    have hX1 : 1 ≤ 2 ^ (b - 1) := Nat.one_le_two_pow
    have hY1 : 1 ≤ 2 ^ (height t - b) := Nat.one_le_two_pow
    rw [hsplit, Nat.pow_add, Nat.pow_two]
    rw [hX] at h3
    by_cases hd : height t - b = 0
    · rw [hd] at h3 ⊢
      simp only [Nat.pow_zero, Nat.mul_one] at h3 ⊢
      have hle : 2 ^ (b - 1) ≤ tree_size t := by omega
      exact Nat.le_trans hle (Nat.le_mul_self _)
    · have hY2 : 2 ≤ 2 ^ (height t - b) := by
        have := Nat.pow_le_pow_right (show 0 < 2 by omega) (show 1 ≤ height t - b by omega)
        simpa using this
      exact Nat.mul_le_mul (by omega) (by omega)
  · intro s hs hfit cmp buf
    have hcap : RB_MAX_DEPTH s = 16 * s := by
      simp [RB_MAX_DEPTH, Nat.shiftLeft_eq]
      omega
    have hheight : height t + 1 ≤ 16 * s := by
      by_contra hcon
      have hbW : 8 * s ≤ b := by omega
      have hpow : 2 ^ (8 * s) ≤ 2 ^ b := Nat.pow_le_pow_right (by omega) hbW
      by_cases hd : height t - b = 0
      · have hbW2 : 8 * s + 1 ≤ b := by omega
        have hpow2 : 2 ^ (8 * s + 1) ≤ 2 ^ b := Nat.pow_le_pow_right (by omega) hbW2
        rw [Nat.pow_succ] at hpow2
        have hY1 : 1 ≤ 2 ^ (height t - b) := Nat.one_le_two_pow
        have hW1 : 1 ≤ 2 ^ (8 * s) := Nat.one_le_two_pow
        omega
      · have hY2 : 2 ≤ 2 ^ (height t - b) := by
          have := Nat.pow_le_pow_right (show 0 < 2 by omega) (show 1 ≤ height t - b by omega)
          simpa using this
        omega
    have hwi := rb_insert_wind_length cmp buf t
    have hwr := rb_remove_wind_length cmp buf t
    rw [hcap]
    omega

/-- C15 at the tree built from 1, 2, 3, on a machine with pointers of 8 bytes. -/
theorem C15_depth_at_most_twice_log_witness :
    rb_invariants three_tree = true ∧ 1 ≤ tree_size three_tree ∧
    2 ^ (height three_tree - 1) ≤ tree_size three_tree ^ 2 ∧
    (rb_insert_wind cmp_int (bytes4 4) three_tree).length + 1 ≤ RB_MAX_DEPTH 8 :=
  ⟨by decide, by decide,
    (C15_depth_at_most_twice_log three_tree (by decide) (by decide)).1,
    ((C15_depth_at_most_twice_log three_tree (by decide) (by decide)).2 8 (by decide)
      (by decide) cmp_int (bytes4 4)).1⟩

/-! ## Insertion keeps the red-black invariants -/

theorem rb_insert_step_ok (l : map_node_t) (k v : Buf) (c : Bool) (r : map_node_t)
    (cmpv : Int) (child : map_node_t) (u : rb_unwind_t) (b : Nat)
    (hrr : no_red_red (.node l k v c r) = true)
    (hnr : no_red_right (.node l k v c r) = true)
    (hb : black_height (.node l k v c r) = some b)
    (hchild : insert_outcome_ok (if cmpv < 0 then l else r) (.next child))
    (hu : rb_insert_step ⟨.node l k v c r, cmpv⟩ child = some u) :
    insert_outcome_ok (.node l k v c r) u := by
  obtain ⟨a, hbl, hbr, hba⟩ := black_height_node l k v c r b hb
  rcases child with _ | ⟨cl, ck, cv, cc, cr⟩
  · simp [rb_insert_step, rbtnode_get_red, rbtnode_set_left, rbtnode_set_right] at hu
  · by_cases h : cmpv < 0
    · simp only [h, if_true, insert_outcome_ok, hbl] at hchild
      obtain ⟨-, hcnr, hcb, hcol⟩ := hchild
      obtain ⟨a', hbcl, hbcr, ha'⟩ := black_height_node cl ck cv cc cr a hcb
      rcases cl with _ | ⟨cll, clk, clv, clc, clr⟩
      · cases cc <;> cases c <;>
          simp [rb_insert_step, h, rbtnode_set_left, rbtnode_get_red, rbtnode_get_left,
            rbtnode_nonnull_red] at hu <;>
          subst hu <;>
          simp_all [insert_outcome_ok, no_red_red, no_red_right, black_height,
            children_no_red_red, rbtnode_nonnull_red]
      · obtain ⟨a'', hbcll, hbclr, ha''⟩ := black_height_node cll clk clv clc clr a' hbcl
        cases cc <;> cases clc <;> cases c <;>
          simp [rb_insert_step, h, rbtnode_set_left, rbtnode_get_red, rbtnode_get_left,
            rbtnode_nonnull_red, rbtnode_in_left, rbtnode_set_black, rbtnode_rotate_right,
            rbtnode_get_right, rbtnode_set_right] at hu <;>
          subst hu <;>
          simp_all [insert_outcome_ok, no_red_red, no_red_right, black_height,
            children_no_red_red, rbtnode_nonnull_red]
    · simp only [h, if_false, insert_outcome_ok, hbr] at hchild
      obtain ⟨-, hcnr, hcb, hcol⟩ := hchild
      obtain ⟨a', hbcl, hbcr, ha'⟩ := black_height_node cl ck cv cc cr a hcb
      rcases l with _ | ⟨ll, lk, lv, lc, lr⟩
      · cases cc <;> cases c <;>
          simp [rb_insert_step, h, rbtnode_set_left, rbtnode_get_red, rbtnode_get_left,
            rbtnode_nonnull_red, rbtnode_in_left, rbtnode_in_right, rbtnode_set_black,
            rbtnode_rotate_left, rbtnode_set_color, rbtnode_set_red,
            rbtnode_get_right, rbtnode_set_right] at hu <;>
          subst hu <;>
          simp_all [insert_outcome_ok, no_red_red, no_red_right, black_height,
            children_no_red_red, rbtnode_nonnull_red]
      · obtain ⟨a'', hbll, hblr, ha''⟩ := black_height_node ll lk lv lc lr a hbl
        cases cc <;> cases lc <;> cases c <;>
          simp [rb_insert_step, h, rbtnode_set_left, rbtnode_get_red, rbtnode_get_left,
            rbtnode_nonnull_red, rbtnode_in_left, rbtnode_in_right, rbtnode_set_black,
            rbtnode_rotate_left, rbtnode_set_color, rbtnode_set_red,
            rbtnode_get_right, rbtnode_set_right] at hu <;>
          subst hu <;>
          simp_all [insert_outcome_ok, no_red_red, no_red_right, black_height,
            children_no_red_red, rbtnode_nonnull_red]

theorem rb_insert_resume_ret_single (l : map_node_t) (k v : Buf) (c : Bool) (r : map_node_t)
    (cmpv : Int) (cnode : map_node_t) :
    rb_insert_resume [⟨.node l k v c r, cmpv⟩] (.ret cnode) =
      some (.ret (if cmpv < 0 then .node cnode k v c r else .node l k v c cnode)) := by
  by_cases h : cmpv < 0 <;>
    simp [rb_insert_resume, rb_path_relink, h, rbtnode_set_left, rbtnode_set_right]

theorem insert_outcome_ok_relink (l : map_node_t) (k v : Buf) (c : Bool) (r : map_node_t)
    (cmpv : Int) (cnode : map_node_t) (b : Nat)
    (hrr : no_red_red (.node l k v c r) = true)
    (hnr : no_red_right (.node l k v c r) = true)
    (hb : black_height (.node l k v c r) = some b)
    (hchild : insert_outcome_ok (if cmpv < 0 then l else r) (.ret cnode)) :
    insert_outcome_ok (.node l k v c r)
      (.ret (if cmpv < 0 then .node cnode k v c r else .node l k v c cnode)) := by
  obtain ⟨a, hbl, hbr, hba⟩ := black_height_node l k v c r b hb
  by_cases h : cmpv < 0
  · simp only [h, if_true, insert_outcome_ok] at hchild ⊢
    obtain ⟨-, hcrr, hcnr, hcb, hcol⟩ := hchild
    simp_all [no_red_red, no_red_right, black_height, rbtnode_nonnull_red]
  · simp only [h, if_false, insert_outcome_ok] at hchild ⊢
    obtain ⟨-, hcrr, hcnr, hcb, hcol⟩ := hchild
    simp_all [no_red_red, no_red_right, black_height, rbtnode_nonnull_red]

/-- The unwind of `rb_insert` with a key that the tree does not hold keeps the shape
invariants of every subtree on the descent. -/
theorem rb_insert_sub_ok (cmp : Buf → Buf → Int) (key ck cv : Buf) (t : map_node_t) :
    ∀ b, no_red_red t = true → no_red_right t = true → black_height t = some b →
      (∀ p ∈ inorder t, cmp key p.1 ≠ 0) →
      ∀ u, rb_insert_sub cmp key (.node .nil ck cv true .nil) t = some u →
        insert_outcome_ok t u := by
  induction t with
  | nil =>
    intro b _ _ _ _ u hu
    simp only [rb_insert_sub, Option.some.injEq] at hu
    subst hu
    simp [insert_outcome_ok, no_red_right, no_red_red, black_height, rbtnode_nonnull_red]
  | node l k v c r ihl ihr =>
    intro b hrr hnr hb hfresh u hu
    obtain ⟨a, hbl, hbr, hba⟩ := black_height_node l k v c r b hb
    have h0 : cmp key k ≠ 0 := hfresh (k, v) (by simp [inorder])
    have hrr' := hrr
    have hnr' := hnr
    simp only [no_red_red, no_red_right, Bool.and_eq_true] at hrr' hnr'
    by_cases hlt : cmp key k < 0
    · simp only [rb_insert_sub, h0, hlt, if_true, if_false] at hu
      cases hsub : rb_insert_sub cmp key (.node .nil ck cv true .nil) l with
      | none => simp [hsub] at hu
      | some u1 =>
        rw [hsub, Option.some_bind] at hu
        have h1 := ihl a hrr'.1.2 hnr'.1.2 hbl
          (fun p hp => hfresh p (by simp [inorder, hp])) u1 hsub
        cases u1 with
        | ret cnode =>
          rw [rb_insert_resume_ret_single, Option.some.injEq] at hu
          subst hu
          exact insert_outcome_ok_relink l k v c r (cmp key k) cnode b hrr hnr hb
            (by simpa [hlt] using h1)
        | next cnode =>
          rw [rb_insert_resume_next_single] at hu
          exact rb_insert_step_ok l k v c r (cmp key k) cnode u b hrr hnr hb
            (by simpa [hlt] using h1) hu
    · simp only [rb_insert_sub, h0, hlt, if_false] at hu
      cases hsub : rb_insert_sub cmp key (.node .nil ck cv true .nil) r with
      | none => simp [hsub] at hu
      | some u1 =>
        rw [hsub, Option.some_bind] at hu
        have h1 := ihr a hrr'.2 hnr'.2 hbr
          (fun p hp => hfresh p (by simp [inorder, hp])) u1 hsub
        cases u1 with
        | ret cnode =>
          rw [rb_insert_resume_ret_single, Option.some.injEq] at hu
          subst hu
          exact insert_outcome_ok_relink l k v c r (cmp key k) cnode b hrr hnr hb
            (by simpa [hlt] using h1)
        | next cnode =>
          rw [rb_insert_resume_next_single] at hu
          exact rb_insert_step_ok l k v c r (cmp key k) cnode u b hrr hnr hb
            (by simpa [hlt] using h1) hu

/-- Insertion of a key that the tree does not hold, into a tree in search-tree order
with a black root, no red node below a red node, equally many black nodes on
every path and no red right child: `rb_insert` runs to completion, and the new
tree has these properties again, with the new pair in its place in the in-order
sequence. -/
theorem rb_insert_keeps_invariants (obj : map_internal_t) (hcmp : comparator_laws obj.cmp)
    (hbst : bst_order obj.cmp obj.root) (hroot : root_black obj.root = true)
    (hrr : no_red_red obj.root = true) (hbh : (black_height obj.root).isSome = true)
    (hnr : no_red_right obj.root = true)
    (fl : map_node_t) (key val : Buf) (fc : Bool) (fr : map_node_t)
    (hfresh : ∀ p ∈ inorder obj.root, obj.cmp key p.1 ≠ 0) :
    ∃ root, rb_insert obj (.node fl key val fc fr) = some { obj with root := root } ∧
      (inorder root).Pairwise (fun a b => obj.cmp a.1 b.1 < 0) ∧
      (inorder root).Perm ((key, val) :: inorder obj.root) ∧
      root_black root = true ∧ no_red_red root = true ∧
      (black_height root).isSome = true ∧ no_red_right root = true := by
  obtain ⟨b, hb⟩ := Option.isSome_iff_exists.mp hbh
  obtain ⟨u, hu, hn, hi⟩ :=
    rb_insert_sub_spec obj.cmp key (.node .nil key val true .nil) (by simp) obj.root
  have hok := rb_insert_sub_ok obj.cmp key key val obj.root b hrr hnr hb hfresh u hu
  have hs := (bst_order_iff_pairwise obj.cmp hcmp obj.root).mp hbst
  have hsorted := insert_inorder_sorted obj.cmp hcmp key val obj.root hs hfresh
  have hperm := insert_inorder_perm obj.cmp key [(key, val)] obj.root hfresh
  have hblack : rbtnode_nonnull_red obj.root = false := by simpa [root_black] using hroot
  simp only [inorder, List.nil_append] at hi
  rw [← hi] at hsorted hperm
  rw [rb_insert_eq_sub, hu, Option.some_bind]
  cases u with
  | ret cnode =>
    simp only [insert_outcome_ok, hblack, hb] at hok
    obtain ⟨-, hcrr, hcnr, hcb, hcol⟩ := hok
    exact ⟨cnode, rfl, hsorted, hperm, by simp [root_black, hcol], hcrr, by simp [hcb], hcnr⟩
  | next cnode =>
    simp only [insert_outcome_ok, hblack, hb, Bool.false_eq_true, if_false] at hok
    obtain ⟨-, hcnr, hcb, hcrr⟩ := hok
    rcases cnode with _ | ⟨cl, ck, cv, cc, cr⟩
    · exact absurd rfl hn
    · obtain ⟨a, hbl, hbr, -⟩ := black_height_node cl ck cv cc cr b hcb
      refine ⟨.node cl ck cv false cr, rfl, by simpa [unwind_node, inorder] using hsorted,
        by simpa [unwind_node, inorder] using hperm, by simp [root_black, rbtnode_nonnull_red],
        ?_, ?_, ?_⟩
      · simp only [no_red_red, Bool.and_eq_true] at hcrr ⊢
        simp [hcrr.1.2, hcrr.2]
      · simp [black_height, hbl, hbr]
      · simpa [no_red_right] using hcnr

theorem left_leaning_of_no_red_right (t : map_node_t) (h : no_red_right t = true) :
    left_leaning t = true := by
  induction t with
  | nil => rfl
  | node l k v c r ihl ihr =>
    simp only [no_red_right, Bool.and_eq_true, Bool.not_eq_true'] at h
    simp [left_leaning, h.1.1, ihl h.1.2, ihr h.2]

theorem distinct_keys_of_sorted (cmp : Buf → Buf → Int) (t : map_node_t)
    (h : (inorder t).Pairwise fun a b => cmp a.1 b.1 < 0) : distinct_keys cmp t :=
  List.Pairwise.imp (fun hab => by omega) h

/-- C12, counterexample: the tree with the black root 2 and the red children 1 and 3
satisfies invariants (a) to (f), and after the insert of the absent key 0 the
node 2 has the red right child 3 and no left child: (f) fails. -/
theorem C12_weak_left_leaning_not_kept :
    rb_invariants four_node_tree = true ∧
    (inorder four_node_tree).Pairwise (fun a b => cmp_int a.1 b.1 < 0) ∧
    (rb_insert { int_map with root := four_node_tree } (leaf 0 0 false)).map (fun m => m.root)
      = some (.node (leaf 0 0 false) (bytes4 1) (bytes4 1) false
          (.node .nil (bytes4 2) (bytes4 2) false (leaf 3 3 true))) ∧
    (rb_insert { int_map with root := four_node_tree } (leaf 0 0 false)).map
        (fun m => left_leaning m.root) = some false := by
  decide

/-- C12, amended: for every tree that satisfies invariants (a) to (e) and has no red
right child at all, and every key not present in it, `rb_insert` runs to
completion and the tree after it satisfies invariants (a) to (f). -/
theorem C12_insert_keeps_invariants (obj : map_internal_t) (hcmp : comparator_laws obj.cmp)
    (hbst : bst_order obj.cmp obj.root) (hroot : root_black obj.root = true)
    (hrr : no_red_red obj.root = true) (hbh : (black_height obj.root).isSome = true)
    (hnr : no_red_right obj.root = true)
    (fl : map_node_t) (key val : Buf) (fc : Bool) (fr : map_node_t)
    (hfresh : ∀ p ∈ inorder obj.root, obj.cmp key p.1 ≠ 0) :
    ∃ root, rb_insert obj (.node fl key val fc fr) = some { obj with root := root } ∧
      bst_order obj.cmp root ∧ distinct_keys obj.cmp root ∧ rb_invariants root = true := by
  obtain ⟨root, hins, hs, -, h1, h2, h3, h4⟩ :=
    rb_insert_keeps_invariants obj hcmp hbst hroot hrr hbh hnr fl key val fc fr hfresh
  refine ⟨root, hins, (bst_order_iff_pairwise obj.cmp hcmp root).mpr hs,
    distinct_keys_of_sorted obj.cmp root hs, ?_⟩
  simp [rb_invariants, h1, h2, h3, left_leaning_of_no_red_right root h4]

/-- C12, amended, at the tree built from 1, 2, 3 and the absent key 4. -/
theorem C12_insert_keeps_invariants_witness :
    bst_order three_map.cmp three_map.root ∧ root_black three_map.root = true ∧
    no_red_red three_map.root = true ∧ (black_height three_map.root).isSome = true ∧
    no_red_right three_map.root = true ∧
    (∀ p ∈ inorder three_map.root, three_map.cmp (bytes4 4) p.1 ≠ 0) ∧
    ∃ root, rb_insert three_map (leaf 4 4 false) = some { three_map with root := root } ∧
      bst_order three_map.cmp root ∧ distinct_keys three_map.cmp root ∧
      rb_invariants root = true :=
  ⟨by simp [bst_order, inorder, leaf, three_map, three_tree]; decide,
    by decide, by decide, by decide, by decide, by decide,
    C12_insert_keeps_invariants three_map cmp_int_laws
      (by simp [bst_order, inorder, leaf, three_map, three_tree]; decide)
      (by decide) (by decide) (by decide) (by decide)
      .nil (bytes4 4) (bytes4 4) false .nil (by decide)⟩

/-- C19: for every tree in search-tree order with a black root, no red node below a red
node, equally many black nodes on every path and no red right child, and every
key not present in it, `rb_insert` runs to completion and the tree after it is in
search-tree order with distinct keys, has a black root, no red node below a red
node, equally many black nodes on every path and no red right child. -/
theorem C19_insert_keeps_no_red_right (obj : map_internal_t) (hcmp : comparator_laws obj.cmp)
    (hbst : bst_order obj.cmp obj.root) (hroot : root_black obj.root = true)
    (hrr : no_red_red obj.root = true) (hbh : (black_height obj.root).isSome = true)
    (hnr : no_red_right obj.root = true)
    (fl : map_node_t) (key val : Buf) (fc : Bool) (fr : map_node_t)
    (hfresh : ∀ p ∈ inorder obj.root, obj.cmp key p.1 ≠ 0) :
    ∃ root, rb_insert obj (.node fl key val fc fr) = some { obj with root := root } ∧
      bst_order obj.cmp root ∧ distinct_keys obj.cmp root ∧ root_black root = true ∧
      no_red_red root = true ∧ (black_height root).isSome = true ∧
      no_red_right root = true := by
  obtain ⟨root, hins, hs, -, h1, h2, h3, h4⟩ :=
    rb_insert_keeps_invariants obj hcmp hbst hroot hrr hbh hnr fl key val fc fr hfresh
  exact ⟨root, hins, (bst_order_iff_pairwise obj.cmp hcmp root).mpr hs,
    distinct_keys_of_sorted obj.cmp root hs, h1, h2, h3, h4⟩

/-- C19 at the tree built from 1, 2, 3 and the absent key 0. -/
theorem C19_insert_keeps_no_red_right_witness :
    bst_order three_map.cmp three_map.root ∧ root_black three_map.root = true ∧
    no_red_red three_map.root = true ∧ (black_height three_map.root).isSome = true ∧
    no_red_right three_map.root = true ∧
    (∀ p ∈ inorder three_map.root, three_map.cmp (bytes4 0) p.1 ≠ 0) ∧
    ∃ root, rb_insert three_map (leaf 0 0 false) = some { three_map with root := root } ∧
      bst_order three_map.cmp root ∧ distinct_keys three_map.cmp root ∧
      root_black root = true ∧ no_red_red root = true ∧
      (black_height root).isSome = true ∧ no_red_right root = true :=
  ⟨by simp [bst_order, inorder, leaf, three_map, three_tree]; decide,
    by decide, by decide, by decide, by decide, by decide,
    C19_insert_keeps_no_red_right three_map cmp_int_laws
      (by simp [bst_order, inorder, leaf, three_map, three_tree]; decide)
      (by decide) (by decide) (by decide) (by decide)
      .nil (bytes4 0) (bytes4 0) false .nil (by decide)⟩

/-! ## Removal keeps the red-black invariants -/

theorem rb_remove_step_left_eq (top : Bool) (l : map_node_t) (k v : Buf) (c : Bool)
    (r : map_node_t) (cmpv : Int) (child : map_node_t) (hcmp : cmpv < 0) :
    rb_remove_step top ⟨.node l k v c r, cmpv⟩ child =
      if c then rb_remove_left_red top (.node child k v c r)
      else rb_remove_left_black (.node child k v c r) := by
  have hcmp0 : cmpv ≠ 0 := by omega
  cases c <;>
    simp [rb_remove_step, c_assert, hcmp, hcmp0, rbtnode_set_left, rbtnode_get_red]

theorem rb_remove_step_left_ok (top : Bool) (l : map_node_t) (k v : Buf) (c : Bool)
    (r : map_node_t) (cmpv : Int) (child : map_node_t) (b cb : Nat) (hcmp : cmpv < 0)
    (hrr : no_red_red (.node l k v c r) = true)
    (hnr : no_red_right (.node l k v c r) = true)
    (hb : black_height (.node l k v c r) = some b)
    (htop : top = true → c = false)
    (hside : rbtnode_nonnull_red l = false ∧ black_height l = some (cb + 1))
    (hchild : no_red_red child = true ∧ no_red_right child = true ∧
      rbtnode_nonnull_red child = false ∧ black_height child = some cb) :
    ∃ u, rb_remove_step top ⟨.node l k v c r, cmpv⟩ child = some u ∧
      unwind_node u ≠ .nil ∧ remove_outcome_ok c b u ∧
      inorder (unwind_node u) = inorder child ++ (k, v) :: inorder r := by
  obtain ⟨a, hbl, hbr, hba⟩ := black_height_node l k v c r b hb
  obtain ⟨hlred, hlb⟩ := hside
  obtain ⟨hcrr, hcnr, hcred, hcb⟩ := hchild
  have ha : a = cb + 1 := by rw [hbl] at hlb; exact Option.some.inj hlb
  subst ha
  rw [rb_remove_step_left_eq top l k v c r cmpv child hcmp]
  simp only [no_red_red, no_red_right, Bool.and_eq_true, Bool.or_eq_true,
    Bool.not_eq_true'] at hrr hnr
  obtain ⟨⟨hcc, -⟩, hrrr⟩ := hrr
  obtain ⟨⟨hrblack, -⟩, hnrr⟩ := hnr
  rcases r with _ | ⟨rl, rk, rv, rc, rr⟩
  · simp [black_height] at hbr
  · obtain ⟨a', hbrl, hbrr, ha'⟩ := black_height_node rl rk rv rc rr _ hbr
    simp only [rbtnode_nonnull_red] at hrblack
    subst hrblack
    simp only [Bool.false_eq_true, if_false, Nat.add_right_cancel_iff] at ha'
    subst ha'
    simp only [no_red_red, no_red_right, Bool.and_eq_true, Bool.or_eq_true,
      Bool.not_eq_true'] at hrrr hnrr
    obtain ⟨⟨-, hrlrr⟩, hrrrr⟩ := hrrr
    obtain ⟨⟨hrrblack, hrlnr⟩, hrrnr⟩ := hnrr
    rcases rl with _ | ⟨rll, rlk, rlv, rlc, rlr⟩
    · cases c
      · refine ⟨_, rfl, ?_, ?_, by simp [unwind_node, inorder]⟩ <;>
          simp_all [unwind_node, remove_outcome_ok, no_red_red, no_red_right, black_height,
            rbtnode_nonnull_red]
      · have ht : top = false := by cases top <;> simp_all
        subst ht
        refine ⟨_, rfl, ?_, ?_, by simp [unwind_node, inorder]⟩ <;>
          simp_all [unwind_node, remove_outcome_ok, no_red_red, no_red_right, black_height,
            rbtnode_nonnull_red]
    · obtain ⟨a'', hbrll, hbrlr, ha''⟩ := black_height_node rll rlk rlv rlc rlr _ hbrl
      simp only [no_red_red, no_red_right, Bool.and_eq_true, Bool.or_eq_true,
        Bool.not_eq_true'] at hrlrr hrlnr
      cases c
      · cases rlc <;> refine ⟨_, rfl, ?_, ?_, by simp [unwind_node, inorder]⟩ <;>
          simp_all [unwind_node, remove_outcome_ok, no_red_red, no_red_right, black_height,
            rbtnode_nonnull_red]
      · have ht : top = false := by cases top <;> simp_all
        subst ht
        cases rlc <;> refine ⟨_, rfl, ?_, ?_, by simp [unwind_node, inorder]⟩ <;>
          simp_all [unwind_node, remove_outcome_ok, no_red_red, no_red_right, black_height,
            rbtnode_nonnull_red]

theorem rb_remove_step_right_eq (top : Bool) (ll : map_node_t) (lk lv : Buf) (lc : Bool)
    (lr : map_node_t) (k v : Buf) (c : Bool)
    (r : map_node_t) (cmpv : Int) (child : map_node_t) (hcmp : 0 < cmpv) :
    rb_remove_step top ⟨.node (.node ll lk lv lc lr) k v c r, cmpv⟩ child =
      if lc then
        rb_remove_right_sibling_red (.node (.node ll lk lv lc lr) k v c child)
          (.node ll lk lv lc lr)
      else if c then
        rb_remove_right_red top (.node (.node ll lk lv lc lr) k v c child)
          (.node ll lk lv lc lr)
      else
        rb_remove_right_black (.node (.node ll lk lv lc lr) k v c child)
          (.node ll lk lv lc lr) := by
  have hcmp0 : cmpv ≠ 0 := by omega
  have hcmp1 : ¬ cmpv < 0 := by omega
  cases c <;> cases lc <;>
    simp [rb_remove_step, c_assert, hcmp1, hcmp0, rbtnode_set_right, rbtnode_get_red,
      rbtnode_get_left]

theorem rb_remove_step_right_ok (top : Bool) (l : map_node_t) (k v : Buf) (c : Bool)
    (r : map_node_t) (cmpv : Int) (child : map_node_t) (b cb : Nat) (hcmp : 0 < cmpv)
    (hrr : no_red_red (.node l k v c r) = true)
    (hnr : no_red_right (.node l k v c r) = true)
    (hb : black_height (.node l k v c r) = some b)
    (htop : top = true → c = false)
    (hside : black_height r = some (cb + 1))
    (hchild : no_red_red child = true ∧ no_red_right child = true ∧
      rbtnode_nonnull_red child = false ∧ black_height child = some cb) :
    ∃ u, rb_remove_step top ⟨.node l k v c r, cmpv⟩ child = some u ∧
      unwind_node u ≠ .nil ∧ remove_outcome_ok c b u ∧
      inorder (unwind_node u) = inorder l ++ (k, v) :: inorder child := by
  obtain ⟨a, hbl, hbr, hba⟩ := black_height_node l k v c r b hb
  obtain ⟨hcrr, hcnr, hcred, hcb⟩ := hchild
  have ha : a = cb + 1 := by rw [hbr] at hside; exact Option.some.inj hside
  subst ha
  simp only [no_red_red, no_red_right, Bool.and_eq_true, Bool.or_eq_true,
    Bool.not_eq_true'] at hrr hnr
  obtain ⟨⟨hcc, hlrr⟩, -⟩ := hrr
  obtain ⟨⟨-, hlnr⟩, -⟩ := hnr
  rcases l with _ | ⟨ll, lk, lv, lc, lr⟩
  · simp [black_height] at hbl
  · rw [rb_remove_step_right_eq top ll lk lv lc lr k v c r cmpv child hcmp]
    obtain ⟨a', hbll, hblr, ha'⟩ := black_height_node ll lk lv lc lr _ hbl
    simp only [no_red_red, no_red_right, Bool.and_eq_true, Bool.or_eq_true,
      Bool.not_eq_true'] at hlrr hlnr
    obtain ⟨⟨hlcc, hllrr⟩, hlrrr⟩ := hlrr
    obtain ⟨⟨hlrblack, hllnr⟩, hlrnr⟩ := hlnr
    cases lc
    · -- the sibling is black
      simp only [Bool.false_eq_true, if_false, Nat.add_right_cancel_iff] at ha'
      subst ha'
      rcases ll with _ | ⟨lll, llk, llv, llc, llr⟩
      · cases c
        · refine ⟨_, rfl, ?_, ?_, by simp [unwind_node, inorder]⟩ <;>
            simp_all [unwind_node, remove_outcome_ok, no_red_red, no_red_right, black_height,
              rbtnode_nonnull_red]
        · have ht : top = false := by cases top <;> simp_all
          subst ht
          refine ⟨_, rfl, ?_, ?_, by simp [unwind_node, inorder]⟩ <;>
            simp_all [unwind_node, remove_outcome_ok, no_red_red, no_red_right, black_height,
              rbtnode_nonnull_red]
      · obtain ⟨a'', hblll, hbllr, ha''⟩ := black_height_node lll llk llv llc llr _ hbll
        simp only [no_red_red, no_red_right, Bool.and_eq_true, Bool.or_eq_true,
          Bool.not_eq_true'] at hllrr hllnr
        cases c
        · cases llc <;> refine ⟨_, rfl, ?_, ?_, by simp [unwind_node, inorder]⟩ <;>
            simp_all [unwind_node, remove_outcome_ok, no_red_red, no_red_right, black_height,
              rbtnode_nonnull_red]
        · have ht : top = false := by cases top <;> simp_all
          subst ht
          cases llc <;> refine ⟨_, rfl, ?_, ?_, by simp [unwind_node, inorder]⟩ <;>
            simp_all [unwind_node, remove_outcome_ok, no_red_red, no_red_right, black_height,
              rbtnode_nonnull_red]
    · -- the sibling is red
      simp only [if_true] at ha'
      subst ha'
      have hcblack : c = false := by
        rcases hcc with hcc | hcc
        · exact hcc
        · simp [rbtnode_nonnull_red] at hcc
      subst hcblack
      rcases lr with _ | ⟨lrl, lrk, lrv, lrc, lrr⟩
      · simp [black_height] at hblr
      · obtain ⟨a'', hblrl, hblrr, ha''⟩ := black_height_node lrl lrk lrv lrc lrr _ hblr
        simp only [rbtnode_nonnull_red] at hlrblack
        subst hlrblack
        simp only [no_red_red, no_red_right, Bool.and_eq_true, Bool.or_eq_true,
          Bool.not_eq_true'] at hlrrr hlrnr
        rcases lrl with _ | ⟨lrll, lrlk, lrlv, lrlc, lrlr⟩
        · refine ⟨_, rfl, ?_, ?_, by simp [unwind_node, inorder]⟩ <;>
            simp_all [unwind_node, remove_outcome_ok, no_red_red, no_red_right, black_height,
              rbtnode_nonnull_red]
        · obtain ⟨a3, hblrll, hblrlr, ha3⟩ :=
            black_height_node lrll lrlk lrlv lrlc lrlr _ hblrl
          simp only [no_red_red, no_red_right, Bool.and_eq_true, Bool.or_eq_true,
            Bool.not_eq_true'] at hlrrr hlrnr
          cases lrlc <;> refine ⟨_, rfl, ?_, ?_, by simp [unwind_node, inorder]⟩ <;>
            simp_all [unwind_node, remove_outcome_ok, no_red_red, no_red_right, black_height,
              rbtnode_nonnull_red]

theorem rb_remove_unwind_cons (e : rb_path_entry_t) (above : List rb_path_entry_t)
    (child : map_node_t) :
    rb_remove_unwind (e :: above) child =
      (rb_remove_step above.isEmpty e child).bind (rb_remove_cont above) := by
  cases h : rb_remove_step above.isEmpty e child with
  | none => simp [rb_remove_unwind, h]
  | some u => cases u <;> simp [rb_remove_unwind, h, rb_remove_cont]

theorem rb_path_relink_cons_node (l : map_node_t) (k v : Buf) (c : Bool) (r : map_node_t)
    (cmpv : Int) (above : List rb_path_entry_t) (t : map_node_t) :
    rb_path_relink (⟨.node l k v c r, cmpv⟩ :: above) t =
      rb_path_relink above (if cmpv < 0 then .node t k v c r else .node l k v c t) := by
  by_cases h : cmpv < 0 <;> simp [rb_path_relink, h, rbtnode_set_left, rbtnode_set_right]

/-- The unwind of `rb_remove` above a place on the path: it runs to completion, and
the root it leaves is black and in order, with the in-order sequence of the
entries around that of the subtree handed up. -/
theorem rb_remove_cont_ok (topb : Nat) (above : List rb_path_entry_t) :
    ∀ (cred : Bool) (cbh : Nat) (u : rb_unwind_t),
      remove_path_ok false topb cred cbh above → remove_outcome_ok cred cbh u →
      unwind_node u ≠ .nil →
      ∃ root, rb_remove_cont above u = some root ∧ root_black root = true ∧
        no_red_red root = true ∧ (black_height root).isSome = true ∧
        no_red_right root = true ∧
        inorder root = plug_inorder above (inorder (unwind_node u)) := by
  induction above with
  | nil =>
    intro cred cbh u hpath hu hne
    obtain ⟨hc, -⟩ := hpath
    subst hc
    cases u with
    | ret tnode =>
      obtain ⟨h1, h2, h3, h4⟩ := hu
      refine ⟨tnode, rfl, ?_, h1, by simp [h3], h2, rfl⟩
      cases hred : rbtnode_nonnull_red tnode
      · simp [root_black, hred]
      · exact absurd (h4 hred) (by simp)
    | next tnode =>
      obtain ⟨h1, h2, ⟨b, h3, -⟩, h4, -⟩ := hu
      rcases tnode with _ | ⟨tl, tk, tv, tc, tr⟩
      · exact absurd rfl hne
      · simp only [rbtnode_nonnull_red] at h4
        subst h4
        exact ⟨_, by simp [rb_remove_cont, rb_remove_unwind, rbtnode_get_red, c_assert],
          by simp [root_black, rbtnode_nonnull_red], h1, by simp [h3], h2, rfl⟩
  | cons e above ih =>
    intro cred cbh u hpath hu hne
    obtain ⟨enode, ecmp⟩ := e
    obtain ⟨l, k, v, c, r, b, hnode, hcmp0, hrr, hnr, hb, hside, hrest⟩ := hpath
    simp only at hnode hcmp0 hside
    subst hnode
    obtain ⟨a, hbl, hbr, hba⟩ := black_height_node l k v c r b hb
    have htop : above.isEmpty = true → c = false := by
      intro hemp
      cases above with
      | nil => exact hrest.1
      | cons _ _ => simp at hemp
    cases u with
    | ret tnode =>
      obtain ⟨h1, h2, h3, h4⟩ := hu
      have hrr' := hrr
      have hnr' := hnr
      simp only [no_red_red, no_red_right, Bool.and_eq_true, Bool.or_eq_true,
        Bool.not_eq_true'] at hrr' hnr'
      simp only [rb_remove_cont, rb_path_relink_cons_node, plug_inorder]
      by_cases hlt : ecmp < 0
      · simp only [hlt, if_true] at hside ⊢
        have hok : remove_outcome_ok c b (.ret (.node tnode k v c r)) := by
          refine ⟨?_, ?_, ?_, ?_⟩
          · cases hred : rbtnode_nonnull_red tnode
            · simp_all [no_red_red]
            · have := h4 hred
              simp_all [no_red_red]
          · simp_all [no_red_right]
          · simp_all [black_height]
          · simp [rbtnode_nonnull_red]
        obtain ⟨root, hroot, p1, p2, p3, p4, p5⟩ :=
          ih c b (.ret (.node tnode k v c r)) hrest hok (by simp [unwind_node])
        exact ⟨root, hroot, p1, p2, p3, p4, by simpa [unwind_node, inorder] using p5⟩
      · simp only [hlt, if_false] at hside ⊢
        have hok : remove_outcome_ok c b (.ret (.node l k v c tnode)) := by
          refine ⟨?_, ?_, ?_, ?_⟩
          · cases hred : rbtnode_nonnull_red tnode
            · simp_all [no_red_red]
            · have := h4 hred
              simp_all [no_red_red]
          · cases hred : rbtnode_nonnull_red tnode
            · simp_all [no_red_right]
            · have := h4 hred
              simp_all [no_red_right]
          · simp_all [black_height]
          · simp [rbtnode_nonnull_red]
        obtain ⟨root, hroot, p1, p2, p3, p4, p5⟩ :=
          ih c b (.ret (.node l k v c tnode)) hrest hok (by simp [unwind_node])
        exact ⟨root, hroot, p1, p2, p3, p4, by simpa [unwind_node, inorder] using p5⟩
    | next tnode =>
      obtain ⟨h1, h2, ⟨cb, h3, hcb⟩, h4, h5⟩ := hu
      subst h5
      subst hcb
      simp only [rb_remove_cont, rb_remove_unwind_cons, plug_inorder]
      by_cases hlt : ecmp < 0
      · simp only [hlt, if_true] at hside ⊢
        obtain ⟨u', hu', hne', hok', hin'⟩ :=
          rb_remove_step_left_ok above.isEmpty l k v c r ecmp tnode b cb hlt hrr hnr hb htop
            hside ⟨h1, h2, h4, h3⟩
        obtain ⟨root, hroot, p1, p2, p3, p4, p5⟩ := ih c b u' hrest hok' hne'
        refine ⟨root, ?_, p1, p2, p3, p4, ?_⟩
        · rw [hu']
          exact hroot
        · rw [p5, hin']
          rfl
      · simp only [hlt, if_false] at hside ⊢
        obtain ⟨u', hu', hne', hok', hin'⟩ :=
          rb_remove_step_right_ok above.isEmpty l k v c r ecmp tnode b cb (by omega) hrr hnr
            hb htop hside.2 ⟨h1, h2, h4, h3⟩
        obtain ⟨root, hroot, p1, p2, p3, p4, p5⟩ := ih c b u' hrest hok' hne'
        refine ⟨root, ?_, p1, p2, p3, p4, ?_⟩
        · rw [hu']
          exact hroot
        · rw [p5, hin']
          rfl


/-- Pruning a leaf of colour `pc`: `rb_remove` runs to completion from there, and the
root it leaves is black and in order. -/
theorem rb_remove_prune_ok (topb : Nat) (pnode : map_node_t) (pc : Bool)
    (hpc : rbtnode_get_red pnode = some pc) (above : List rb_path_entry_t)
    (hne : above ≠ [])
    (hpath : remove_path_ok false topb pc (if pc then 0 else 1) above) :
    ∃ root, rb_remove_prune pnode above = some root ∧ root_black root = true ∧
      no_red_red root = true ∧ (black_height root).isSome = true ∧
      no_red_right root = true ∧ inorder root = plug_inorder above [] := by
  rcases above with _ | ⟨e, above⟩
  · exact absurd rfl hne
  · obtain ⟨enode, ecmp⟩ := e
    have hpath' := hpath
    obtain ⟨l, k, v, c, r, b, hnode, hcmp0, hrr, hnr, hb, hside, hrest⟩ := hpath
    simp only at hnode hcmp0 hside
    subst hnode
    obtain ⟨a, hbl, hbr, hba⟩ := black_height_node l k v c r b hb
    have htop : above.isEmpty = true → c = false := by
      intro hemp
      cases above with
      | nil => exact hrest.1
      | cons _ _ => simp at hemp
    have hrr' := hrr
    have hnr' := hnr
    simp only [no_red_red, no_red_right, Bool.and_eq_true, Bool.or_eq_true,
      Bool.not_eq_true'] at hrr' hnr'
    cases pc with
    | true =>
      have hlt : ecmp < 0 := by
        by_contra hcon
        simp only [hcon, if_false] at hside
        rw [hnr'.1.1] at hside
        exact absurd hside.1 (by simp)
      simp only [hlt, if_true] at hside
      have hok : remove_outcome_ok c b (.ret (.node .nil k v c r)) := by
        refine ⟨?_, ?_, ?_, ?_⟩
        · simp_all [no_red_red, rbtnode_nonnull_red]
        · simp_all [no_red_right]
        · simp_all [black_height]
        · simp [rbtnode_nonnull_red]
      obtain ⟨root, hroot, p1, p2, p3, p4, p5⟩ :=
        rb_remove_cont_ok topb above c b (.ret (.node .nil k v c r)) hrest hok
          (by simp [unwind_node])
      refine ⟨root, ?_, p1, p2, p3, p4, ?_⟩
      · simp only [rb_remove_prune, hpc, Option.bind_eq_bind, Option.some_bind, if_true,
          c_assert, hlt, decide_True, rbtnode_set_left]
        exact hroot
      · simpa [plug_inorder, hlt, unwind_node, inorder] using p5
    | false =>
      have hstep : ∃ u, rb_remove_step above.isEmpty ⟨.node l k v c r, ecmp⟩ .nil = some u ∧
          unwind_node u ≠ .nil ∧ remove_outcome_ok c b u ∧
          inorder (unwind_node u) = plug_inorder [⟨.node l k v c r, ecmp⟩] [] := by
        by_cases hlt : ecmp < 0
        · simp only [hlt, if_true, Bool.false_eq_true, if_false] at hside
          obtain ⟨u, h1, h2, h3, h4⟩ :=
            rb_remove_step_left_ok above.isEmpty l k v c r ecmp .nil b 0 hlt hrr hnr hb htop
              hside ⟨rfl, rfl, rfl, rfl⟩
          exact ⟨u, h1, h2, h3, by simpa [plug_inorder, hlt, inorder] using h4⟩
        · simp only [hlt, if_false, Bool.false_eq_true] at hside
          obtain ⟨u, h1, h2, h3, h4⟩ :=
            rb_remove_step_right_ok above.isEmpty l k v c r ecmp .nil b 0 (by omega) hrr hnr
              hb htop hside.2 ⟨rfl, rfl, rfl, rfl⟩
          exact ⟨u, h1, h2, h3, by simpa [plug_inorder, hlt, inorder] using h4⟩
      obtain ⟨u, hu, hune, huok, huin⟩ := hstep
      obtain ⟨root, hroot, p1, p2, p3, p4, p5⟩ :=
        rb_remove_cont_ok topb above c b u hrest huok hune
      refine ⟨root, ?_, p1, p2, p3, p4, ?_⟩
      · simp only [rb_remove_prune, hpc, Option.bind_eq_bind, Option.some_bind,
          Bool.false_eq_true, if_false, rb_remove_unwind_cons, hu]
        exact hroot
      · rw [p5, huin]
        by_cases hlt : ecmp < 0 <;> simp [plug_inorder, hlt]

theorem remove_path_ok_append (tc : Bool) (tb : Nat) (mc : Bool) (mb : Nat)
    (ys : List rb_path_entry_t) (hys : remove_path_ok tc tb mc mb ys)
    (xs : List rb_path_entry_t) :
    ∀ (cred : Bool) (cbh : Nat), remove_path_ok mc mb cred cbh xs →
      remove_path_ok tc tb cred cbh (xs ++ ys) := by
  induction xs with
  | nil =>
    intro cred cbh h
    obtain ⟨h1, h2⟩ := h
    subst h1 h2
    exact hys
  | cons e xs ih =>
    intro cred cbh h
    obtain ⟨l, k, v, c, r, b, h1, h2, h3, h4, h5, h6, h7⟩ := h
    exact ⟨l, k, v, c, r, b, h1, h2, h3, h4, h5, h6, ih c b h7⟩

theorem plug_inorder_append (xs ys : List rb_path_entry_t) :
    ∀ zs, plug_inorder (xs ++ ys) zs = plug_inorder ys (plug_inorder xs zs) := by
  induction xs with
  | nil => intro zs; rfl
  | cons e xs ih =>
    intro zs
    obtain ⟨enode, ecmp⟩ := e
    rcases enode with _ | ⟨l, k, v, c, r⟩
    · simp only [List.cons_append, plug_inorder]
      exact ih zs
    · by_cases h : ecmp < 0 <;> simp only [List.cons_append, plug_inorder, h, if_true, if_false]
      · exact ih _
      · exact ih _

theorem rb_remove_successor_spec (s : map_node_t) :
    ∀ sb, s ≠ .nil → no_red_red s = true → no_red_right s = true →
      black_height s = some sb →
      ∃ SP sk sv sc rest,
        rb_remove_successor s = SP ++ [⟨.node .nil sk sv sc .nil, -1⟩] ∧
        remove_path_ok (rbtnode_nonnull_red s) sb sc (if sc then 0 else 1) SP.reverse ∧
        inorder s = (sk, sv) :: rest ∧
        ∀ xs, plug_inorder SP.reverse xs = xs ++ rest := by
  induction s with
  | nil => intro sb h; exact absurd rfl h
  | node sl k v c sr ihl _ =>
    intro sb _ hrr hnr hb
    obtain ⟨a, hbl, hbr, hba⟩ := black_height_node sl k v c sr sb hb
    have hrr' := hrr
    have hnr' := hnr
    simp only [no_red_red, no_red_right, Bool.and_eq_true, Bool.or_eq_true,
      Bool.not_eq_true'] at hrr' hnr'
    rcases sl with _ | ⟨sll, slk, slv, slc, slr⟩
    · have ha : a = 0 := by simpa [black_height] using hbl.symm
      subst ha
      have hsr : sr = .nil := by
        rcases sr with _ | ⟨srl, srk, srv, src, srr⟩
        · rfl
        · obtain ⟨a', -, -, ha'⟩ := black_height_node srl srk srv src srr 0 hbr
          have hblack := hnr'.1.1
          simp only [rbtnode_nonnull_red] at hblack
          subst hblack
          simp at ha'
      subst hsr
      refine ⟨[], k, v, c, [], by simp [rb_remove_successor], ?_, by simp [inorder], ?_⟩
      · cases c <;> simp_all [remove_path_ok, rbtnode_nonnull_red]
      · intro xs
        simp [plug_inorder]
    · obtain ⟨SP, sk, sv, sc, rest, h1, h2, h3, h4⟩ :=
        ihl a (by simp) hrr'.1.2 hnr'.1.2 hbl
      refine ⟨⟨.node (.node sll slk slv slc slr) k v c sr, -1⟩ :: SP, sk, sv, sc,
        rest ++ (k, v) :: inorder sr, ?_, ?_, ?_, ?_⟩
      · simp only [rb_remove_successor] at h1 ⊢
        rw [h1]
        simp
      · rw [List.reverse_cons]
        refine remove_path_ok_append _ _ _ _ _ ?_ _ _ _ h2
        exact ⟨_, k, v, c, sr, sb, rfl, by simp, hrr, hnr, hb, by simp [hbl], rfl, rfl⟩
      · simp only [inorder] at h3 ⊢
        rw [h3]
        simp
      · intro xs
        rw [List.reverse_cons, plug_inorder_append, h4]
        simp [plug_inorder]

theorem rb_remove_wind_spec (cmp : Buf → Buf → Int) (hcmp : comparator_laws cmp)
    (nl : map_node_t) (nk nv : Buf) (nc : Bool) (nr : map_node_t) (t : map_node_t) :
    ∀ tb, no_red_red t = true → no_red_right t = true → black_height t = some tb →
      (inorder t).Pairwise (fun a b => cmp a.2 b.2 < 0) →
      .node nl nk nv nc nr ∈ nodes t →
      ∃ P A B bN,
        rb_remove_wind cmp nv t =
          (P ++ ⟨.node nl nk nv nc nr, 1⟩ :: rb_remove_successor nr, some P.length) ∧
        black_height (.node nl nk nv nc nr) = some bN ∧
        no_red_red (.node nl nk nv nc nr) = true ∧
        no_red_right (.node nl nk nv nc nr) = true ∧
        remove_path_ok (rbtnode_nonnull_red t) tb nc bN P.reverse ∧
        inorder t = A ++ inorder (.node nl nk nv nc nr) ++ B ∧
        ∀ xs, plug_inorder P.reverse xs = A ++ xs ++ B := by
  induction t with
  | nil => intro tb _ _ _ _ h; simp [nodes] at h
  | node l k v c r ihl ihr =>
    intro tb hrr hnr hb hs hmem
    obtain ⟨a, hbl, hbr, hba⟩ := black_height_node l k v c r tb hb
    have hrr' := hrr
    have hnr' := hnr
    simp only [no_red_red, no_red_right, Bool.and_eq_true, Bool.or_eq_true,
      Bool.not_eq_true'] at hrr' hnr'
    simp only [inorder, List.pairwise_append, List.pairwise_cons] at hs
    obtain ⟨hsl, ⟨hkr, hsr⟩, hcross⟩ := hs
    simp only [nodes, List.mem_append, List.mem_cons] at hmem
    rcases hmem with hm | hm | hm
    · have hlt : cmp nv v < 0 :=
        hcross (nk, nv) (mem_inorder_of_mem_nodes nl nk nv nc nr l hm) (k, v) (by simp)
      obtain ⟨P, A, B, bN, h1, h2, h3, h4, h5, h6, h7⟩ := ihl a hrr'.1.2 hnr'.1.2 hbl hsl hm
      refine ⟨⟨.node l k v c r, cmp nv v⟩ :: P, A, B ++ (k, v) :: inorder r, bN,
        ?_, h2, h3, h4, ?_, ?_, ?_⟩
      · simp [rb_remove_wind, hlt, h1]
      · rw [List.reverse_cons]
        refine remove_path_ok_append _ _ _ _ _ ?_ _ _ _ h5
        exact ⟨l, k, v, c, r, tb, rfl, by simp; omega, hrr, hnr, hb, by simp [hlt, hbl],
          rfl, rfl⟩
      · simp only [inorder] at h6 ⊢
        rw [h6]
        simp
      · intro xs
        rw [List.reverse_cons, plug_inorder_append, h7]
        simp [plug_inorder, hlt]
    · injection hm with e1 e2 e3 e4 e5
      subst e1 e2 e3 e4 e5
      refine ⟨[], [], [], tb, ?_, hb, hrr, hnr, ⟨rfl, rfl⟩, by simp, ?_⟩
      · simp [rb_remove_wind, hcmp.refl]
      · intro xs
        simp [plug_inorder]
    · have hgt : cmp v nv < 0 := hkr (nk, nv) (mem_inorder_of_mem_nodes nl nk nv nc nr r hm)
      have hgt2 : 0 < cmp nv v := (hcmp.antisymm v nv).mp hgt
      have hlt : ¬ cmp nv v < 0 := by omega
      have h0 : cmp nv v ≠ 0 := by omega
      obtain ⟨P, A, B, bN, h1, h2, h3, h4, h5, h6, h7⟩ := ihr a hrr'.2 hnr'.2 hbr hsr hm
      refine ⟨⟨.node l k v c r, cmp nv v⟩ :: P, inorder l ++ (k, v) :: A, B, bN,
        ?_, h2, h3, h4, ?_, ?_, ?_⟩
      · simp [rb_remove_wind, hlt, h0, h1]
      · rw [List.reverse_cons]
        refine remove_path_ok_append _ _ _ _ _ ?_ _ _ _ h5
        exact ⟨l, k, v, c, r, tb, rfl, h0, hrr, hnr, hb, by simp [hlt, hbr], rfl, rfl⟩
      · simp only [inorder] at h6 ⊢
        rw [h6]
        simp
      · intro xs
        rw [List.reverse_cons, plug_inorder_append, h7]
        simp [plug_inorder, hlt]

theorem list_get_append_length {α : Type} (P : List α) (x : α) (ys : List α) :
    (P ++ x :: ys).get? P.length = some x := by
  induction P with
  | nil => rfl
  | cons p P ih => simpa using ih

theorem list_modify_append_length {α : Type} (f : α → α) (P : List α) (x : α) (ys : List α) :
    (P ++ x :: ys).modify f P.length = P ++ f x :: ys := by
  induction P with
  | nil => rfl
  | cons p P ih => simp [List.modify_succ_cons, ih]

/-- Removal of a node from a tree with a black root, no red node below a red node,
equally many black nodes on every path and no red right child, whose values
increase along the in-order sequence: `rb_remove` runs to completion, the new
tree has the four properties again, and its in-order sequence is the old one
without the pair of the node removed. -/
theorem rb_remove_root_spec (cmp : Buf → Buf → Int) (hcmp : comparator_laws cmp)
    (t : map_node_t) (hroot : root_black t = true) (hrr : no_red_red t = true)
    (hbh : (black_height t).isSome = true) (hnr : no_red_right t = true)
    (hs : (inorder t).Pairwise (fun a b => cmp a.2 b.2 < 0))
    (nl : map_node_t) (nk nv : Buf) (nc : Bool) (nr : map_node_t)
    (hmem : .node nl nk nv nc nr ∈ nodes t) :
    ∃ root A B, rb_remove_root cmp t (.node nl nk nv nc nr) = some root ∧
      inorder t = A ++ (nk, nv) :: B ∧ inorder root = A ++ B ∧
      root_black root = true ∧ no_red_red root = true ∧
      (black_height root).isSome = true ∧ no_red_right root = true := by
  obtain ⟨tb, hb⟩ := Option.isSome_iff_exists.mp hbh
  have htblack : rbtnode_nonnull_red t = false := by simpa [root_black] using hroot
  obtain ⟨P, A, B, bN, hw, hbN, hNrr, hNnr, hpath, hin, hplug⟩ :=
    rb_remove_wind_spec cmp hcmp nl nk nv nc nr t tb hrr hnr hb hs hmem
  rw [htblack] at hpath
  obtain ⟨a, hbnl, hbnr, hba⟩ := black_height_node nl nk nv nc nr bN hbN
  have hNrr' := hNrr
  have hNnr' := hNnr
  simp only [no_red_red, no_red_right, Bool.and_eq_true, Bool.or_eq_true,
    Bool.not_eq_true'] at hNrr' hNnr'
  rcases nr with _ | ⟨nrl, nrk, nrv, nrc, nrr⟩
  · -- no successor
    have ha : a = 0 := by simpa [black_height] using hbnr.symm
    subst ha
    have hhead : rb_remove_root cmp t (.node nl nk nv nc .nil) =
        rb_remove_splice (.node nl nk nv nc .nil) P.reverse := by
      simp only [rb_remove_root, node_val, Option.bind_eq_bind, Option.some_bind, hw,
        rb_remove_successor, list_get_append_length, c_assert, decide_True, if_true,
        List.getLast?_append, List.getLast?_singleton, Option.or_some, ne_eq,
        not_true_eq_false, if_false, List.dropLast_concat]
    rw [hhead]
    rcases nl with _ | ⟨nll, nlk, nlv, nlc, nlr⟩
    · -- a leaf
      by_cases hP : P.reverse = []
      · have hP' : P = [] := by simpa using hP
        subst hP'
        have hAB := hplug []
        simp only [List.reverse_nil, plug_inorder, List.append_nil] at hAB
        have hA : A = [] := by
          cases A with
          | nil => rfl
          | cons _ _ => simp at hAB
        subst hA
        have hB : B = [] := by simpa using hAB.symm
        subst hB
        refine ⟨.nil, [], [], ?_, by simpa [inorder] using hin, rfl, rfl, rfl, rfl, rfl⟩
        simp [rb_remove_splice, rbtnode_get_left]
      · have hbN' : bN = if nc then 0 else 1 := by
          cases nc <;> simpa using hba
        rw [hbN'] at hpath
        obtain ⟨root, h1, p1, p2, p3, p4, p5⟩ :=
          rb_remove_prune_ok tb (.node .nil nk nv nc .nil) nc rfl P.reverse hP hpath
        refine ⟨root, A, B, ?_, by simpa [inorder] using hin, ?_, p1, p2, p3, p4⟩
        · have hemp : P.reverse.isEmpty = false := by
            cases hPr : P.reverse with
            | nil => exact absurd hPr hP
            | cons _ _ => rfl
          simp only [rb_remove_splice, rbtnode_get_left, Option.bind_eq_bind,
            Option.some_bind, ne_eq, not_true_eq_false, if_false, hemp, Bool.false_eq_true]
          exact h1
        · rw [p5, hplug]
          simp
    · -- a left child only
      obtain ⟨a', hbnll, hbnlr, ha'⟩ := black_height_node nll nlk nlv nlc nlr 0 hbnl
      have hnlc : nlc = true := by
        cases nlc
        · simp at ha'
        · rfl
      subst hnlc
      simp only [if_true] at ha'
      subst ha'
      have hncb : nc = false := by
        rcases hNrr'.1.1 with h | h
        · exact h
        · simp [rbtnode_nonnull_red] at h
      subst hncb
      simp only [Bool.false_eq_true, if_false] at hba
      subst hba
      have hnlrr := hNrr'.1.2
      have hnlnr := hNnr'.1.2
      simp only [no_red_red, no_red_right, Bool.and_eq_true, Bool.or_eq_true,
        Bool.not_eq_true'] at hnlrr hnlnr
      have hok : remove_outcome_ok false (0 + 1) (.ret (.node nll nlk nlv false nlr)) := by
        refine ⟨?_, ?_, ?_, ?_⟩
        · simp_all [no_red_red]
        · simp_all [no_red_right]
        · simp_all [black_height]
        · simp [rbtnode_nonnull_red]
      obtain ⟨root, h1, p1, p2, p3, p4, p5⟩ :=
        rb_remove_cont_ok tb P.reverse false (0 + 1) (.ret (.node nll nlk nlv false nlr))
          hpath hok (by simp [unwind_node])
      refine ⟨root, A ++ inorder (.node nll nlk nlv true nlr), B, ?_, ?_, ?_, p1, p2, p3, p4⟩
      · simp only [rb_remove_splice, rbtnode_get_left, Option.bind_eq_bind,
          Option.some_bind, ne_eq, not_false_eq_true, if_true, rbtnode_get_red, c_assert,
          Bool.not_false, rbtnode_set_black, reduceCtorEq]
        exact h1
      · rw [hin]
        simp [inorder]
      · rw [p5, hplug]
        simp [unwind_node, inorder]
  · -- swap with the successor
    obtain ⟨SP, sk, sv, sc, rest, hsucc, hspath, hsin, hsplug⟩ :=
      rb_remove_successor_spec (.node nrl nrk nrv nrc nrr) a (by simp) hNrr'.2 hNnr'.2 hbnr
    have hnrblack : nrc = false := by simpa [rbtnode_nonnull_red] using hNnr'.1.1
    subst hnrblack
    have hne : (map_node_t.node .nil sk sv sc .nil) ≠
        .node nl nk nv nc (.node nrl nrk nrv false nrr) := by
      intro h
      injection h with _ _ _ _ h5
      exact absurd h5 (by simp)
    have hhead : rb_remove_root cmp t (.node nl nk nv nc (.node nrl nrk nrv false nrr)) =
        rb_remove_prune (.node nl nk nv sc (.node nrl nrk nrv false nrr))
          (SP.reverse ++
            ⟨.node nl sk sv nc (.node nrl nrk nrv false nrr), 1⟩ :: P.reverse) := by
      have hpathlist : P ++ ⟨.node nl nk nv nc (.node nrl nrk nrv false nrr), 1⟩ ::
          (SP ++ [⟨.node .nil sk sv sc .nil, -1⟩]) =
          (P ++ ⟨.node nl nk nv nc (.node nrl nrk nrv false nrr), 1⟩ :: SP) ++
            [⟨.node .nil sk sv sc .nil, -1⟩] := by simp
      simp only [rb_remove_root, node_val, Option.bind_eq_bind, Option.some_bind, hw, hsucc,
        list_get_append_length, c_assert, decide_True, if_true]
      rw [hpathlist]
      simp only [List.getLast?_append, List.getLast?_singleton, Option.or_some,
        Option.some_bind, List.dropLast_concat, ne_eq, hne, not_false_eq_true, if_true,
        rb_remove_swap, rbtnode_get_red, rbtnode_set_color, rbtnode_get_left,
        rbtnode_set_left, rbtnode_get_right, rbtnode_set_right, Option.bind_eq_bind,
        List.reverse_reverse, list_modify_append_length]
      simp
    rw [hhead]
    have hpath' : remove_path_ok false tb sc (if sc then 0 else 1)
        (SP.reverse ++
          ⟨.node nl sk sv nc (.node nrl nrk nrv false nrr), 1⟩ :: P.reverse) := by
      refine remove_path_ok_append _ _ _ _ _ ?_ _ _ _ hspath
      exact ⟨nl, sk, sv, nc, _, bN, rfl, by simp, hNrr, hNnr, hbN, by simp [hbnr], hpath⟩
    obtain ⟨root, h1, p1, p2, p3, p4, p5⟩ :=
      rb_remove_prune_ok tb (.node nl nk nv sc (.node nrl nrk nrv false nrr)) sc rfl _
        (by simp) hpath'
    refine ⟨root, A ++ inorder nl, (sk, sv) :: rest ++ B, h1, ?_, ?_, p1, p2, p3, p4⟩
    · rw [hin]
      simp only [inorder] at hsin ⊢
      rw [hsin]
      simp
    · rw [p5, plug_inorder_append, hsplug]
      show plug_inorder P.reverse (inorder nl ++ (sk, sv) :: ([] ++ rest)) = _
      rw [hplug]
      simp

theorem nil_not_mem_nodes (t : map_node_t) : map_node_t.nil ∉ nodes t := by
  induction t with
  | nil => simp [nodes]
  | node l k v c r ihl ihr => simp [nodes, ihl, ihr]

/-- C20: for every tree in search-tree order with a black root, no red node below a red
node, equally many black nodes on every path and no red right child, in which the
comparator gives the same sign on the value buffers of two nodes as on their key
buffers, `rb_remove` of any node of the tree runs to completion, and the tree it
leaves is in search-tree order, has a black root or is empty, has no red node
below a red node, equally many black nodes on every path and no red right
child. -/
theorem C20_remove_keeps_invariants (obj : map_internal_t) (hcmp : comparator_laws obj.cmp)
    (hbst : bst_order obj.cmp obj.root) (hroot : root_black obj.root = true)
    (hrr : no_red_red obj.root = true) (hbh : (black_height obj.root).isSome = true)
    (hnr : no_red_right obj.root = true)
    (hval : ∀ p ∈ inorder obj.root, ∀ q ∈ inorder obj.root,
      (obj.cmp p.2 q.2 < 0 ↔ obj.cmp p.1 q.1 < 0) ∧
      (obj.cmp p.2 q.2 = 0 ↔ obj.cmp p.1 q.1 = 0))
    (node : map_node_t) (hnode : node ∈ nodes obj.root) :
    ∃ root, rb_remove obj node = some { obj with root := root } ∧
      bst_order obj.cmp root ∧ root_black root = true ∧ no_red_red root = true ∧
      (black_height root).isSome = true ∧ no_red_right root = true := by
  rcases node with _ | ⟨nl, nk, nv, nc, nr⟩
  · exact absurd hnode (nil_not_mem_nodes obj.root)
  · have hsk := (bst_order_iff_pairwise obj.cmp hcmp obj.root).mp hbst
    have hsv : (inorder obj.root).Pairwise (fun a b => obj.cmp a.2 b.2 < 0) :=
      List.Pairwise.imp_of_mem (fun ha hb hab => ((hval _ ha _ hb).1).mpr hab) hsk
    obtain ⟨root, A, B, hrem, hin, hout, p1, p2, p3, p4⟩ :=
      rb_remove_root_spec obj.cmp hcmp obj.root hroot hrr hbh hnr hsv nl nk nv nc nr hnode
    refine ⟨root, by simp [rb_remove, hrem], ?_, p1, p2, p3, p4⟩
    rw [bst_order_iff_pairwise obj.cmp hcmp root, hout]
    rw [hin] at hsk
    simp only [List.pairwise_append, List.pairwise_cons, List.mem_cons] at hsk ⊢
    exact ⟨hsk.1, hsk.2.1.2, fun a ha b hb => hsk.2.2 a ha b (Or.inr hb)⟩

/-- C20 at the tree built from 1, 2, 3 (each value equal to its key) and its node 1. -/
theorem C20_remove_keeps_invariants_witness :
    bst_order three_map.cmp three_map.root ∧ root_black three_map.root = true ∧
    no_red_red three_map.root = true ∧ (black_height three_map.root).isSome = true ∧
    no_red_right three_map.root = true ∧
    (∀ p ∈ inorder three_map.root, ∀ q ∈ inorder three_map.root,
      (three_map.cmp p.2 q.2 < 0 ↔ three_map.cmp p.1 q.1 < 0) ∧
      (three_map.cmp p.2 q.2 = 0 ↔ three_map.cmp p.1 q.1 = 0)) ∧
    leaf 1 1 false ∈ nodes three_map.root ∧
    ∃ root, rb_remove three_map (leaf 1 1 false) = some { three_map with root := root } ∧
      bst_order three_map.cmp root ∧ root_black root = true ∧ no_red_red root = true ∧
      (black_height root).isSome = true ∧ no_red_right root = true :=
  ⟨by simp [bst_order, inorder, leaf, three_map, three_tree]; decide,
    by decide, by decide, by decide, by decide, by decide,
    by simp [nodes, three_map, three_tree, leaf],
    C20_remove_keeps_invariants three_map cmp_int_laws
      (by simp [bst_order, inorder, leaf, three_map, three_tree]; decide)
      (by decide) (by decide) (by decide) (by decide) (by decide)
      (leaf 1 1 false) (by simp [nodes, three_map, three_tree, leaf])⟩

/-! ## Removal: the in-order sequence and the assertions -/

/-- C21, counterexample: the tree with the black root 2 and the red children 1 and 3,
every value equal to its key, satisfies the red-black invariants (a) to (f), and
`rb_remove` of its node 3 does not run to completion: the node to prune is red and
it is the right child of 2, so `assert(pathp[-1].cmp < 0)` fails and no tree is
left to read an in-order sequence from. -/
theorem C21_remove_stops_at_red_right_leaf :
    rb_invariants four_node_tree = true ∧
    (inorder four_node_tree).Pairwise (fun a b => cmp_int a.1 b.1 < 0) ∧
    (∀ p ∈ inorder four_node_tree, p.2 = p.1) ∧
    leaf 3 3 true ∈ nodes four_node_tree ∧
    (rb_remove { int_map with root := four_node_tree } (leaf 3 3 true)).isSome = false := by
  decide

/-- C21, amended: for every tree in search-tree order with a black root, no red node
below a red node, equally many black nodes on every path and no red right child,
in which the comparator gives the same sign on the value buffers of two nodes as
on their key buffers, and every node `x` of the tree, `rb_remove` of `x` runs to
completion and the in-order sequence of the tree it leaves is the in-order
sequence before without the entry of `x`: the entries before it and the entries
after it are the same pairs of key and value in the same order, and no entry
with a key equal to the key of `x` is left. -/
theorem C21_remove_deletes_the_node_only (obj : map_internal_t)
    (hcmp : comparator_laws obj.cmp)
    (hbst : bst_order obj.cmp obj.root) (hroot : root_black obj.root = true)
    (hrr : no_red_red obj.root = true) (hbh : (black_height obj.root).isSome = true)
    (hnr : no_red_right obj.root = true)
    (hval : ∀ p ∈ inorder obj.root, ∀ q ∈ inorder obj.root,
      (obj.cmp p.2 q.2 < 0 ↔ obj.cmp p.1 q.1 < 0) ∧
      (obj.cmp p.2 q.2 = 0 ↔ obj.cmp p.1 q.1 = 0))
    (nl : map_node_t) (nk nv : Buf) (nc : Bool) (nr : map_node_t)
    (hnode : .node nl nk nv nc nr ∈ nodes obj.root) :
    ∃ root A B, rb_remove obj (.node nl nk nv nc nr) = some { obj with root := root } ∧
      inorder obj.root = A ++ (nk, nv) :: B ∧ inorder root = A ++ B ∧
      ∀ p ∈ inorder root, obj.cmp p.1 nk ≠ 0 := by
  have hsk := (bst_order_iff_pairwise obj.cmp hcmp obj.root).mp hbst
  have hsv : (inorder obj.root).Pairwise (fun a b => obj.cmp a.2 b.2 < 0) :=
    List.Pairwise.imp_of_mem (fun ha hb hab => ((hval _ ha _ hb).1).mpr hab) hsk
  obtain ⟨root, A, B, hrem, hin, hout, -⟩ :=
    rb_remove_root_spec obj.cmp hcmp obj.root hroot hrr hbh hnr hsv nl nk nv nc nr hnode
  refine ⟨root, A, B, by simp [rb_remove, hrem], hin, hout, ?_⟩
  rw [hin] at hsk
  simp only [List.pairwise_append, List.pairwise_cons, List.mem_cons] at hsk
  intro p hp
  rw [hout] at hp
  rcases List.mem_append.mp hp with hp | hp
  · have := hsk.2.2 p hp (nk, nv) (Or.inl rfl)
    simp only at this
    omega
  · have := hsk.2.1.1 p hp
    exact hcmp.ne_symm _ _ (by omega)

/-- C21 at the tree built from 1, 2, 3 (each value equal to its key) and its root 2, which
is exchanged with its in-order successor 3: the entries of 1 and 3 are left. -/
theorem C21_remove_deletes_the_node_only_witness :
    bst_order three_map.cmp three_map.root ∧ root_black three_map.root = true ∧
    no_red_red three_map.root = true ∧ (black_height three_map.root).isSome = true ∧
    no_red_right three_map.root = true ∧
    (∀ p ∈ inorder three_map.root, ∀ q ∈ inorder three_map.root,
      (three_map.cmp p.2 q.2 < 0 ↔ three_map.cmp p.1 q.1 < 0) ∧
      (three_map.cmp p.2 q.2 = 0 ↔ three_map.cmp p.1 q.1 = 0)) ∧
    three_tree ∈ nodes three_map.root ∧
    ∃ root A B, rb_remove three_map three_tree = some { three_map with root := root } ∧
      inorder three_map.root = A ++ (bytes4 2, bytes4 2) :: B ∧ inorder root = A ++ B ∧
      ∀ p ∈ inorder root, three_map.cmp p.1 (bytes4 2) ≠ 0 :=
  ⟨by simp [bst_order, inorder, leaf, three_map, three_tree]; decide,
    by decide, by decide, by decide, by decide, by decide,
    by simp [nodes, three_map, three_tree, leaf],
    C21_remove_deletes_the_node_only three_map cmp_int_laws
      (by simp [bst_order, inorder, leaf, three_map, three_tree]; decide)
      (by decide) (by decide) (by decide) (by decide) (by decide)
      (leaf 1 1 false) (bytes4 2) (bytes4 2) false (leaf 3 3 false)
      (by simp [nodes, three_map, three_tree, leaf])⟩

/-- C22: for every tree in search-tree order with a black root, no red node below a red
node, equally many black nodes on every path and no red right child, in which the
comparator gives the same sign on the value buffers of two nodes as on their key
buffers, and every node of the tree, `rb_remove` runs to completion.  In the model
every `assert` of the function that fails and every read of a field of an empty
link ends the run with `none`, so a result stands for a run in which the target
is found on the path, a node with a left child only is black and the child red,
a pruned red leaf is a left child, a red path node is not `path[0]`, `leftright`
is present, the final root is black, and the sibling read at each step of the
unwind loop is present. -/
theorem C22_remove_runs_to_completion (obj : map_internal_t)
    (hcmp : comparator_laws obj.cmp)
    (hbst : bst_order obj.cmp obj.root) (hroot : root_black obj.root = true)
    (hrr : no_red_red obj.root = true) (hbh : (black_height obj.root).isSome = true)
    (hnr : no_red_right obj.root = true)
    (hval : ∀ p ∈ inorder obj.root, ∀ q ∈ inorder obj.root,
      (obj.cmp p.2 q.2 < 0 ↔ obj.cmp p.1 q.1 < 0) ∧
      (obj.cmp p.2 q.2 = 0 ↔ obj.cmp p.1 q.1 = 0))
    (node : map_node_t) (hnode : node ∈ nodes obj.root) :
    (rb_remove obj node).isSome = true := by
  rcases node with _ | ⟨nl, nk, nv, nc, nr⟩
  · exact absurd hnode (nil_not_mem_nodes obj.root)
  · have hsk := (bst_order_iff_pairwise obj.cmp hcmp obj.root).mp hbst
    have hsv : (inorder obj.root).Pairwise (fun a b => obj.cmp a.2 b.2 < 0) :=
      List.Pairwise.imp_of_mem (fun ha hb hab => ((hval _ ha _ hb).1).mpr hab) hsk
    obtain ⟨root, A, B, hrem, -⟩ :=
      rb_remove_root_spec obj.cmp hcmp obj.root hroot hrr hbh hnr hsv nl nk nv nc nr hnode
    simp [rb_remove, hrem]

/-- C22 at the tree built from 1, 2, 3 (each value equal to its key) and its node 3. -/
theorem C22_remove_runs_to_completion_witness :
    bst_order three_map.cmp three_map.root ∧ root_black three_map.root = true ∧
    no_red_red three_map.root = true ∧ (black_height three_map.root).isSome = true ∧
    no_red_right three_map.root = true ∧
    (∀ p ∈ inorder three_map.root, ∀ q ∈ inorder three_map.root,
      (three_map.cmp p.2 q.2 < 0 ↔ three_map.cmp p.1 q.1 < 0) ∧
      (three_map.cmp p.2 q.2 = 0 ↔ three_map.cmp p.1 q.1 = 0)) ∧
    leaf 3 3 false ∈ nodes three_map.root ∧
    (rb_remove three_map (leaf 3 3 false)).isSome = true :=
  ⟨by simp [bst_order, inorder, leaf, three_map, three_tree]; decide,
    by decide, by decide, by decide, by decide, by decide,
    by simp [nodes, three_map, three_tree, leaf],
    C22_remove_runs_to_completion three_map cmp_int_laws
      (by simp [bst_order, inorder, leaf, three_map, three_tree]; decide)
      (by decide) (by decide) (by decide) (by decide) (by decide)
      (leaf 3 3 false) (by simp [nodes, three_map, three_tree, leaf])⟩

end RbMap
